import Mathlib

/-!
Verification of `src/javascript/objectExpression.js`: the expression node
model (constants, variables, n-ary operations), the operation registry, the
bracketed prefix/postfix parser and the flat postfix stack parser, together
with symbolic differentiation.

JavaScript numbers are IEEE float64.  Every arithmetic step any claim
exercises is exact over the rationals, so values are modelled as `ℚ`
extended with the non-finite values the program can produce (`NaN`,
`±Infinity`), the irrational constant `Math.E` kept symbolic (it is only
stored inside derivative trees, never evaluated by a claim), and JavaScript's
`undefined` (the result of an out-of-range array read).  The transcendental
cases of `Math.pow` / `Math.log` have no exact rational counterpart; they are
mapped to `nan` below, with the exactly-representable cases kept faithful.
No claim depends on a transcendental evaluation.
-/

namespace ObjectExpression

/-- A JavaScript value as this program produces them: a rational number
(standing for an exactly-representable float64), `Math.E` kept symbolic,
the two infinities, `NaN`, and `undefined`. -/
inductive JSVal where
  | num : ℚ → JSVal
  | euler : JSVal
  | posInf : JSVal
  | negInf : JSVal
  | nan : JSVal
  | undef : JSVal
  deriving DecidableEq, Repr

/-- Arithmetic coerces `undefined` to `NaN` (JS `ToNumber`). -/
def toNumber : JSVal → JSVal
  | .undef => .nan
  | v => v

/-- JS `+` on numbers.  `euler` arithmetic is irrational and mapped to `nan`
(no claim evaluates it). -/
def jsAdd (a b : JSVal) : JSVal :=
  match toNumber a, toNumber b with
  | .num x, .num y => .num (x + y)
  | .num _, .posInf | .posInf, .num _ | .posInf, .posInf => .posInf
  | .num _, .negInf | .negInf, .num _ | .negInf, .negInf => .negInf
  | _, _ => .nan

/-- JS binary `-` on numbers. -/
def jsSub (a b : JSVal) : JSVal :=
  match toNumber a, toNumber b with
  | .num x, .num y => .num (x - y)
  | .posInf, .num _ | .posInf, .negInf | .num _, .negInf => .posInf
  | .negInf, .num _ | .negInf, .posInf | .num _, .posInf => .negInf
  | _, _ => .nan

/-- JS unary `-`. -/
def jsNeg (a : JSVal) : JSVal :=
  match toNumber a with
  | .num x => .num (-x)
  | .posInf => .negInf
  | .negInf => .posInf
  | _ => .nan

/-- JS `*` on numbers. -/
def jsMul (a b : JSVal) : JSVal :=
  match toNumber a, toNumber b with
  | .num x, .num y => .num (x * y)
  | .posInf, .num x | .num x, .posInf =>
    if 0 < x then .posInf else if x < 0 then .negInf else .nan
  | .negInf, .num x | .num x, .negInf =>
    if 0 < x then .negInf else if x < 0 then .posInf else .nan
  | .posInf, .posInf | .negInf, .negInf => .posInf
  | .posInf, .negInf | .negInf, .posInf => .negInf
  | _, _ => .nan

/-- JS `/` on numbers.  JavaScript's signed zero is not modelled (`ℚ` has one
zero): division by zero yields the infinity of the numerator's sign. -/
def jsDiv (a b : JSVal) : JSVal :=
  match toNumber a, toNumber b with
  | .num x, .num y =>
    if y = 0 then (if x = 0 then .nan else if 0 < x then .posInf else .negInf)
    else .num (x / y)
  | .posInf, .num y => if y < 0 then .negInf else .posInf
  | .negInf, .num y => if y < 0 then .posInf else .negInf
  | .num _, .posInf | .num _, .negInf => .num 0
  | _, _ => .nan

/-- JS `Math.abs`. -/
def jsAbs : JSVal → JSVal
  | .num x => .num |x|
  | .posInf | .negInf => .posInf
  | _ => .nan

/-- JS `Math.pow`, on the exactly-representable fragment: integer exponents
are computed exactly over `ℚ`, `pow(x, 0) = 1` for every `x`; the
transcendental cases are mapped to `nan` (no claim evaluates them). -/
def mathPow : JSVal → JSVal → JSVal
  | .num a, .num b =>
    if b.den = 1 then
      (if 0 ≤ b.num then .num (a ^ b.num.toNat)
       else if a = 0 then .posInf else .num (a⁻¹ ^ (-b.num).toNat))
    else .nan
  | _, .num b => if b = 0 then .num 1 else .nan
  | _, _ => .nan

/-- JS `Math.log`, on the exactly-representable fragment (`log 1 = 0`,
`log 0 = -Infinity`, `log Math.E = 1`, negative arguments give `NaN`); the
transcendental cases are mapped to `nan` (no claim evaluates them). -/
def mathLn : JSVal → JSVal
  | .num x => if x = 1 then .num 0 else if x = 0 then .negInf else .nan
  | .euler => .num 1
  | .posInf => .posInf
  | _ => .nan

/-- `const avg = (arr) => arr.reduce((x, y) => x + y, 0) / arr.length;` -/
def avg (arr : List JSVal) : JSVal :=
  jsDiv (arr.foldl jsAdd (.num 0)) (.num arr.length)

/-- `const square = (x) => x * x;` -/
def square (x : JSVal) : JSVal := jsMul x x

/-- `const vars = ["x", "y", "z"];` -/
def vars : List String := ["x", "y", "z"]

/-- The registered operator symbols, in registration order (lines 76-120). -/
def operations : List String :=
  ["+", "-", "negate", "*", "/", "pow", "log", "mean", "var"]

/-- `token in operations`, as membership in the registered (own) property
names.  The JS `in` operator also finds inherited `Object.prototype` names
(`toString`, `hasOwnProperty`, `valueOf`, ...); on such a token the flat
parser crashes with a `TypeError` at `new operations[token]` (line 227), a
path outside this predicate.  That crash is the divergence recorded with
claim C10; theorems about `parse` therefore only concern inputs free of
inherited property names. -/
def isOperation (s : String) : Bool := operations.contains s

/-- `res.arity = operation.length`: the declared parameter count of each
registered evaluation function.  `mean` and `var` use a rest parameter, so
`Function.length` is `0` (the variadic sentinel).  Unregistered symbols are
never queried by the program; `0` is returned for totality. -/
def arity (s : String) : ℕ :=
  if s = "+" then 2 else if s = "-" then 2 else if s = "negate" then 1
  else if s = "*" then 2 else if s = "/" then 2 else if s = "pow" then 2
  else if s = "log" then 2 else 0

/-- An expression tree: `Const` / `Variable` leaves and `Operation` nodes
(an operator symbol with its ordered operand list). -/
inductive Expr where
  | Const : JSVal → Expr
  | Variable : String → Expr
  | Op : String → List Expr → Expr
  deriving Repr

/-- `Array.prototype.indexOf`: the index of the first occurrence, `-1` when
absent. -/
def jsIndexOf (l : List String) (x : String) : ℤ :=
  match l.findIdx? (· = x) with
  | some i => (i : ℤ)
  | none => -1

/-- `values[i]` for a JS array read: `undefined` when out of range (also for
the index `-1`). -/
def jsIndex (l : List JSVal) (i : ℤ) : JSVal :=
  if 0 ≤ i then (match l.get? i.toNat with | some v => v | none => .undef)
  else (.undef)

/-- The registered evaluation function of each operation applied to the
operand values; missing arguments are `undefined` (JS calls with fewer
arguments than declared parameters). -/
def applyOp : String → List JSVal → JSVal
  | "+", a => jsAdd (a.getD 0 .undef) (a.getD 1 .undef)
  | "-", a => jsSub (a.getD 0 .undef) (a.getD 1 .undef)
  | "negate", a => jsNeg (a.getD 0 .undef)
  | "*", a => jsMul (a.getD 0 .undef) (a.getD 1 .undef)
  | "/", a => jsDiv (a.getD 0 .undef) (a.getD 1 .undef)
  | "pow", a => mathPow (a.getD 0 .undef) (a.getD 1 .undef)
  | "log", a => jsDiv (mathLn (jsAbs (a.getD 1 .undef))) (mathLn (jsAbs (a.getD 0 .undef)))
  | "mean", a => avg a
  | "var", a => jsSub (avg (a.map square)) (square (avg a))
  | _, _ => (.undef)

/-- `evaluate(...varValues)`: a constant returns its stored value, a variable
reads `varValues[vars.indexOf(this.varName)]`, an operation evaluates its
operands and applies its registered evaluation function. -/
def evaluate : Expr → List JSVal → JSVal
  | .Const v, _ => v
  | .Variable name, values => jsIndex values (jsIndexOf vars name)
  | .Op sym args, values => applyOp sym (args.attach.map (fun x => evaluate x.1 values))
termination_by e => sizeOf e
decreasing_by
  have := List.sizeOf_lt_of_mem x.2
  simp only [Expr.Op.sizeOf_spec]
  omega

@[simp] theorem evaluate_Const (v : JSVal) (values : List JSVal) :
    evaluate (.Const v) values = v := by rw [evaluate]

@[simp] theorem evaluate_Variable (name : String) (values : List JSVal) :
    evaluate (.Variable name) values = jsIndex values (jsIndexOf vars name) := by rw [evaluate]

@[simp] theorem evaluate_Op (sym : String) (args : List Expr) (values : List JSVal) :
    evaluate (.Op sym args) values = applyOp sym (args.map (fun x => evaluate x values)) := by
  rw [evaluate]
  simp [List.map_subtype]

/-! Rendering.  `Number.prototype.toString` prints an integer float64 of
magnitude below `1e21` as its decimal digits with an optional leading minus
sign, and larger magnitudes in exponential notation (`1e22` prints as
`"1e+22"`); only the plain-decimal form is embedded below.  Together with
`parseInt`'s float64 rounding (exact only below `2 ^ 53`), this is why the
round-trip theorem restricts constants to safe integers, the range on which
the embedding and the source agree character for character.  The non-integer
fallback below uses `ℚ`'s printer and is unreachable from the program's own
constructions. -/

/-- The decimal digit character of `d < 10`. -/
def digitChar (d : ℕ) : Char := Char.ofNat (48 + d)

/-- The decimal digits of a natural number, most significant first. -/
def natToChars (n : ℕ) : List Char :=
  if n = 0 then ['0'] else ((Nat.digits 10 n).map digitChar).reverse

/-- The decimal rendering of an integer, as JS prints integer floats. -/
def intToChars (i : ℤ) : List Char :=
  if i < 0 then '-' :: natToChars i.natAbs else natToChars i.natAbs

/-- `this.value.toString()` for each stored value. -/
def numToChars : JSVal → List Char
  | .num q => if q.den = 1 then intToChars q.num else (toString q).data
  | .euler => "2.718281828459045".data
  | .posInf => "Infinity".data
  | .negInf => "-Infinity".data
  | .nan => "NaN".data
  | .undef => "undefined".data

/-- `join(" ")`. -/
def joinSpace : List (List Char) → List Char
  | [] => []
  | [x] => x
  | x :: xs => x ++ ' ' :: joinSpace xs

/-- `prefix()`: `"(" + operationString + " " + operands.map(prefix).join(" ") + ")"`;
constants and variables render as their literal text. -/
def prefixChars : Expr → List Char
  | .Const v => numToChars v
  | .Variable name => name.data
  | .Op sym args =>
    '(' :: sym.data ++ ' ' :: joinSpace (args.attach.map (fun x => prefixChars x.1)) ++ [')']
termination_by e => sizeOf e
decreasing_by
  have := List.sizeOf_lt_of_mem x.2
  simp only [Expr.Op.sizeOf_spec]
  omega

/-- `postfix()`: `"(" + operands.map(postfix).join(" ") + " " + operationString + ")"`. -/
def postfixChars : Expr → List Char
  | .Const v => numToChars v
  | .Variable name => name.data
  | .Op sym args =>
    '(' :: joinSpace (args.attach.map (fun x => postfixChars x.1)) ++ ' ' :: sym.data ++ [')']
termination_by e => sizeOf e
decreasing_by
  have := List.sizeOf_lt_of_mem x.2
  simp only [Expr.Op.sizeOf_spec]
  omega

@[simp] theorem prefixChars_Const (v : JSVal) : prefixChars (.Const v) = numToChars v := by
  rw [prefixChars]

@[simp] theorem prefixChars_Variable (n : String) : prefixChars (.Variable n) = n.data := by
  rw [prefixChars]

@[simp] theorem prefixChars_Op (sym : String) (args : List Expr) :
    prefixChars (.Op sym args) =
      '(' :: sym.data ++ ' ' :: joinSpace (args.map prefixChars) ++ [')'] := by
  rw [prefixChars]
  simp [List.map_subtype]

@[simp] theorem postfixChars_Const (v : JSVal) : postfixChars (.Const v) = numToChars v := by
  rw [postfixChars]

@[simp] theorem postfixChars_Variable (n : String) : postfixChars (.Variable n) = n.data := by
  rw [postfixChars]

@[simp] theorem postfixChars_Op (sym : String) (args : List Expr) :
    postfixChars (.Op sym args) =
      '(' :: joinSpace (args.map postfixChars) ++ ' ' :: sym.data ++ [')'] := by
  rw [postfixChars]
  simp [List.map_subtype]

/-- `prefix()` as a string. -/
def prefixString (e : Expr) : String := ⟨prefixChars e⟩

/-- `postfix()` as a string. -/
def postfixString (e : Expr) : String := ⟨postfixChars e⟩

/-! The JavaScript string-to-number primitives the parsers rely on:
`isNaN(token)` (i.e. whether `Number(token)` is `NaN`) and
`parseInt(token)`. -/

/-- The whitespace class of JS `\s` and `trim` (the Unicode space separators
beyond these ASCII ones are not modelled; no claim uses them). -/
def jsIsWhitespace (c : Char) : Bool :=
  c = ' ' || c = '\t' || c = '\n' || c = '\r' || c = '\x0b' || c = '\x0c'

/-- Both-ends trim by `jsIsWhitespace`. -/
def jsTrimChars (cs : List Char) : List Char :=
  ((cs.dropWhile (jsIsWhitespace ·)).reverse.dropWhile (jsIsWhitespace ·)).reverse

/-- A hexadecimal digit. -/
def isHexDigitChar (c : Char) : Bool :=
  c.isDigit || ('a' ≤ c && c ≤ 'f') || ('A' ≤ c && c ≤ 'F')

/-- The value of a hexadecimal digit character. -/
def hexVal (c : Char) : ℕ :=
  if c.isDigit then c.toNat - 48
  else if 'a' ≤ c && c ≤ 'f' then c.toNat - 87
  else c.toNat - 55

/-- The value of a decimal digit character. -/
def decVal (c : Char) : ℕ := c.toNat - 48

/-- Digit-list value in the given base, most significant first. -/
def digitsToNat (base : ℕ) (f : Char → ℕ) (ds : List Char) : ℕ :=
  ds.foldl (fun acc c => acc * base + f c) 0

/-- The exponent part of a JS numeric literal after `e`/`E`: an optional sign
followed by at least one decimal digit, consuming the whole rest. -/
def expTail (cs : List Char) : Bool :=
  let cs2 := match cs with | '+' :: r => r | '-' :: r => r | _ => cs
  !cs2.isEmpty && cs2.all Char.isDigit

/-- An unsigned JS decimal literal: `digits [. digits] [exp]`, `. digits [exp]`
or `digits . [exp]`, with at least one digit overall. -/
def jsDecimalForm (cs : List Char) : Bool :=
  let d1 := cs.takeWhile Char.isDigit
  match cs.dropWhile Char.isDigit with
  | [] => !d1.isEmpty
  | '.' :: r =>
    let d2 := r.takeWhile Char.isDigit
    (!d1.isEmpty || !d2.isEmpty) &&
      (match r.dropWhile Char.isDigit with
       | [] => true
       | 'e' :: t => expTail t
       | 'E' :: t => expTail t
       | _ => false)
  | 'e' :: t => !d1.isEmpty && expTail t
  | 'E' :: t => !d1.isEmpty && expTail t
  | _ => false

/-- A signed decimal literal or a signed `Infinity`. -/
def signedDecOrInf (cs : List Char) : Bool :=
  let cs2 := match cs with | '+' :: r => r | '-' :: r => r | _ => cs
  cs2 = "Infinity".data || jsDecimalForm cs2

/-- `!isNaN(s)`: whether `Number(s)` is a number (the ECMAScript
`StringNumericLiteral` grammar: trimmed empty string is `0`; unsigned
`0x`/`0o`/`0b` radix literals; otherwise an optionally signed decimal literal
or `Infinity`). -/
def jsIsNumeric (s : String) : Bool :=
  match jsTrimChars s.data with
  | [] => true
  | '0' :: c :: r =>
    if c = 'x' || c = 'X' then !r.isEmpty && r.all (isHexDigitChar ·)
    else if c = 'o' || c = 'O' then !r.isEmpty && r.all (fun c => '0' ≤ c && c ≤ '7')
    else if c = 'b' || c = 'B' then !r.isEmpty && r.all (fun c => c = '0' || c = '1')
    else signedDecOrInf ('0' :: c :: r)
  | cs => signedDecOrInf cs

/-- The digits-prefix step of `parseInt` in base 10 after the sign. -/
def parseIntDec (sign : ℤ) (cs : List Char) : JSVal :=
  let ds := cs.takeWhile Char.isDigit
  if ds.isEmpty then .nan else .num ((sign * (digitsToNat 10 decVal ds : ℤ) : ℤ) : ℚ)

/-- After the sign: either a `0x`/`0X` hexadecimal prefix or the longest
decimal digit prefix; `NaN` when no digit follows. -/
def jsParseIntBody (sign : ℤ) : List Char → JSVal
  | '0' :: c :: r =>
    if c = 'x' || c = 'X' then
      if (r.takeWhile (isHexDigitChar ·)).isEmpty then .nan
      else .num ((sign * (digitsToNat 16 hexVal (r.takeWhile (isHexDigitChar ·)) : ℤ) : ℤ) : ℚ)
    else parseIntDec sign ('0' :: c :: r)
  | cs => parseIntDec sign cs

/-- The optional sign of `parseInt`. -/
def jsParseIntSigned : List Char → JSVal
  | '-' :: r => jsParseIntBody (-1) r
  | '+' :: r => jsParseIntBody 1 r
  | cs => jsParseIntBody 1 cs

/-- `parseInt(s)` with no radix argument: skip whitespace, read an optional
sign, then either a `0x`/`0X` hexadecimal prefix or the longest decimal digit
prefix; `NaN` when no digit follows.  The value is kept as an exact integer;
the source rounds it to float64, which coincides with the exact value below
`2 ^ 53` (`Number.MAX_SAFE_INTEGER`), the range the round-trip theorem
restricts constants to. -/
def jsParseInt (s : String) : JSVal :=
  jsParseIntSigned (s.data.dropWhile (jsIsWhitespace ·))

/-! The flat postfix (stack) parser, lines 222-235. -/

/-- The actual start index of `array.splice(s)` for an array of length `len`:
a negative argument counts from the end (clamped at `0`), a positive one is
clamped at `len`. -/
def jsSpliceStart (len : ℕ) (s : ℤ) : ℕ :=
  if s < 0 then (max ((len : ℤ) + s) 0).toNat else min s.toNat len

/-- One token of the flat parser's loop: an operator symbol splices the top
`arity` stack entries into a new operation node (note `arity` is `0` for
`mean`/`var`, so nothing is popped); a variable or numeric token pushes a
leaf; anything else is silently ignored. -/
def parseStep (stack : List Expr) (token : String) : List Expr :=
  if isOperation token then
    let k := jsSpliceStart stack.length ((stack.length : ℤ) - (arity token : ℤ))
    stack.take k ++ [Expr.Op token (stack.drop k)]
  else if vars.contains token then stack ++ [Expr.Variable token]
  else if jsIsNumeric token then stack ++ [Expr.Const (jsParseInt token)]
  else stack

/-- `expression.trim().split(/\s+/)`: splitting the trimmed string on
whitespace runs; JavaScript yields `[""]` for the empty string. -/
def jsSplitWhitespace (s : String) : List String :=
  let t := jsTrimChars s.data
  if t.isEmpty then [""]
  else ((t.splitOnP (jsIsWhitespace ·)).filter (fun l => !l.isEmpty)).map
    (fun l => (⟨l⟩ : String))

/-- `parse(expression)`: fold the tokens through the stack and return
`stack[0]` (`undefined`, i.e. `none`, when the stack ends empty). -/
def parse (expression : String) : Option Expr :=
  ((jsSplitWhitespace expression).foldl parseStep []).head?

/-! Symbolic differentiation, lines 22-24 and each operation's
`operationDerivative` (lines 76-120).  `Mean`'s rule differentiates the
`Add`-left-fold of its operands (seeded with `Const.ZERO`) and divides by the
original operand count as a constant; `Var`'s rule rewrites to
`Mean(x_i^2) - Mean(x_i)^2` and differentiates that tree.  Both recurse into
trees that are not subterms, so termination uses the weighted measure
`meas` below. -/

/-- A weighted size on trees: `mean` and `var` nodes weigh more than the
trees their derivative rules rebuild, making `diff` terminate. -/
def meas : Expr → ℕ
  | .Const _ => 1
  | .Variable _ => 1
  | .Op s args =>
    let l := (args.attach.map (fun x => meas x.1)).sum
    if s = "mean" then 2 + args.length + l
    else if s = "var" then 9 + 4 * args.length + 4 * l
    else 1 + l
termination_by e => sizeOf e
decreasing_by
  have := List.sizeOf_lt_of_mem x.2
  simp only [Expr.Op.sizeOf_spec]
  omega

@[simp] theorem meas_Const (v : JSVal) : meas (.Const v) = 1 := by rw [meas]

@[simp] theorem meas_Variable (n : String) : meas (.Variable n) = 1 := by rw [meas]

theorem meas_Op (s : String) (args : List Expr) :
    meas (.Op s args) =
      (if s = "mean" then 2 + args.length + (args.map meas).sum
       else if s = "var" then 9 + 4 * args.length + 4 * (args.map meas).sum
       else 1 + (args.map meas).sum) := by
  rw [meas]
  simp [List.map_subtype]

theorem meas_foldl_add (l : List Expr) (z : Expr) :
    meas (l.foldl (fun a x => Expr.Op "+" [a, x]) z) =
      meas z + l.length + (l.map meas).sum := by
  induction l generalizing z with
  | nil => simp
  | cons x xs ih =>
    rw [List.foldl_cons, ih]
    simp [meas_Op]
    omega

theorem meas_square_map (l : List Expr) :
    (List.map (fun x => meas (Expr.Op "*" [x, x])) l).sum =
      l.length + 2 * (l.map meas).sum := by
  induction l with
  | nil => simp
  | cons x xs ih =>
    simp [ih, meas_Op]
    omega

theorem meas_mean_lt (args : List Expr) :
    meas (args.foldl (fun a x => Expr.Op "+" [a, x]) (.Const (.num 0))) <
      meas (.Op "mean" args) := by
  simp [meas_foldl_add, meas_Op]

theorem meas_var_lt (args : List Expr) :
    meas (.Op "-" [.Op "mean" (args.map (fun x => .Op "*" [x, x])),
      .Op "*" [.Op "mean" args, .Op "mean" args]]) < meas (.Op "var" args) := by
  simp [meas_Op, Function.comp_def]
  omega

/-- `diff(varName)`: constants differentiate to `Const.ZERO`, a variable to
`Const.ONE` or `Const.ZERO`, an operation applies its registered derivative
rule to its (undifferentiated) operands.  Operation nodes whose operand list
does not fit the rule's declared parameters make the JavaScript rule throw a
`TypeError` (an operand is `undefined`); those unreachable-through-the-parsers
cases are mapped to `Const NaN` here, and no claim touches them. -/
def diff : Expr → String → Expr
  | .Const _, _ => .Const (.num 0)
  | .Variable name, difVarName =>
    if difVarName = name then .Const (.num 1) else .Const (.num 0)
  | .Op "+" [x, y], v => .Op "+" [diff x v, diff y v]
  | .Op "-" [x, y], v => .Op "-" [diff x v, diff y v]
  | .Op "negate" [x], v => .Op "negate" [diff x v]
  | .Op "*" [x, y], v =>
    .Op "+" [.Op "*" [diff x v, y], .Op "*" [x, diff y v]]
  | .Op "/" [x, y], v =>
    .Op "/" [.Op "-" [.Op "*" [diff x v, y], .Op "*" [x, diff y v]], .Op "*" [y, y]]
  | .Op "pow" [x, y], v =>
    .Op "*" [.Op "pow" [x, .Op "-" [y, .Const (.num 1)]],
      .Op "+" [.Op "*" [y, diff x v],
        .Op "*" [.Op "*" [x, diff y v], .Op "log" [.Const .euler, x]]]]
  | .Op "log" [x, y], v =>
    .Op "/" [.Op "-" [
        .Op "*" [.Op "*" [.Op "log" [.Const .euler, x], diff y v],
          .Op "/" [.Const (.num 1), y]],
        .Op "*" [.Op "*" [.Op "log" [.Const .euler, y], diff x v],
          .Op "/" [.Const (.num 1), x]]],
      .Op "*" [.Op "log" [.Const .euler, x], .Op "log" [.Const .euler, x]]]
  | .Op "mean" args, v =>
    .Op "/" [diff (args.foldl (fun a x => .Op "+" [a, x]) (.Const (.num 0))) v,
      .Const (.num args.length)]
  | .Op "var" args, v =>
    diff (.Op "-" [.Op "mean" (args.map (fun x => .Op "*" [x, x])),
      .Op "*" [.Op "mean" args, .Op "mean" args]]) v
  | .Op _ _, _ => .Const .nan
termination_by e _ => meas e
decreasing_by
  all_goals first
    | exact meas_mean_lt _
    | exact meas_var_lt _
    | (simp [meas_Op]; try omega)

theorem diff_Const (v : JSVal) (w : String) : diff (.Const v) w = .Const (.num 0) := by
  simp [diff]

theorem diff_Variable (name w : String) :
    diff (.Variable name) w = if w = name then .Const (.num 1) else .Const (.num 0) := by
  simp [diff]

theorem diff_Add (x y : Expr) (v : String) :
    diff (.Op "+" [x, y]) v = .Op "+" [diff x v, diff y v] := by
  simp [diff]

theorem diff_Mean (args : List Expr) (v : String) :
    diff (.Op "mean" args) v =
      .Op "/" [diff (args.foldl (fun a x => .Op "+" [a, x]) (.Const (.num 0))) v,
        .Const (.num args.length)] := by
  simp [diff]

/-- Differentiation distributes over the `Add`-left-fold: each operand is
differentiated exactly once and the seed differentiates to `Const.ZERO`. -/
theorem diff_foldl_add (l : List Expr) (z : Expr) (v : String) :
    diff (l.foldl (fun a x => Expr.Op "+" [a, x]) z) v =
      (l.map (fun x => diff x v)).foldl (fun a x => Expr.Op "+" [a, x]) (diff z v) := by
  induction l generalizing z with
  | nil => simp
  | cons x xs ih =>
    rw [List.foldl_cons, ih, diff_Add]
    simp

/-! The bracketed prefix/postfix parser, lines 122-220.  The source is a
cursor-based recursive descent (`parseToken` / `parseOperation`, mutually
recursive, with a collecting loop inside `parseOperation`).  It is embedded
as one structurally recursive function on a fuel counter so that concrete
runs reduce definitionally; `parseF_isSome` below shows the fuel
`3 * length + 3` used by `parseWithBrackets` always suffices, so the fuel is
no semantic restriction. -/

/-- The error hierarchy of lines 122-141: `InvalidFormatError` may lack a
position (its constructor defaults `pos` to `undefined`),
`InvalidOperationError` is always raised with one. -/
inductive ParseErr where
  | invalidFormat (message : String) (pos : Option ℕ)
  | invalidOperation (message : String) (pos : ℕ)
  deriving DecidableEq, Repr

/-- The number of leading whitespace characters. -/
def countWsPrefix : List Char → ℕ
  | [] => 0
  | c :: r => if jsIsWhitespace c then countWsPrefix r + 1 else 0

/-- `skipWhitespaces()`: advance the cursor past whitespace (stopping at the
end of the input). -/
def skipWs (e : List Char) (s : ℕ) : ℕ := s + countWsPrefix (e.drop s)

/-- A character that `parseToken`'s literal loop consumes: not whitespace and
not a parenthesis. -/
def isTokenChar (c : Char) : Bool := !jsIsWhitespace c && c ≠ '(' && c ≠ ')'

/-- The maximal literal token starting at the cursor (lines 159-162). -/
def tokenChars (e : List Char) (s : ℕ) : List Char :=
  (e.drop s).takeWhile isTokenChar

/-- Classification of a consumed literal token, lines 163-173: empty tokens
and unknown words are format errors, a recognized variable or numeric token
becomes a leaf node, an operator symbol is returned as a raw string. -/
def classifyToken (startPos : ℕ) (token : String) : Except ParseErr (Expr ⊕ String) :=
  if token.length = 0 then .error (.invalidFormat "Empty token" (some startPos))
  else if vars.contains token then .ok (.inl (.Variable token))
  else if jsIsNumeric token then .ok (.inl (.Const (jsParseInt token)))
  else if isOperation token then .ok (.inr token)
  else .error (.invalidFormat ("Unknown token: " ++ token) (some startPos))

/-- The checks after the closing bracket, lines 194-205: exactly one operator
string, at the mode's position (first in prefix mode, after all operands in
postfix mode), with an operand count that is at least one and matches the
registered arity unless that arity is the variadic sentinel `0`. -/
def finishOperation (operationAtStart : Bool) (startPos : ℕ) (tokens : List Expr)
    (operationStrings : List (String × ℕ)) : Except ParseErr Expr :=
  if operationStrings.length ≠ 1 then
    .error (.invalidOperation ("Invalid expression (expected one operation per (...) block " ++
      "but parsed " ++ toString operationStrings.length ++ " operations)") startPos)
  else if (operationStrings.getD 0 ("", 0)).2 ≠ (if operationAtStart then 0 else tokens.length) then
    .error (.invalidOperation ("Invalid operation position (operation: " ++
      (operationStrings.getD 0 ("", 0)).1 ++ ")") startPos)
  else if tokens.length = 0 ∨
      (arity (operationStrings.getD 0 ("", 0)).1 ≠ 0 ∧
        arity (operationStrings.getD 0 ("", 0)).1 ≠ tokens.length) then
    .error (.invalidOperation ("Invalid amount of arguments (" ++ toString tokens.length ++
      ") for operation " ++ (operationStrings.getD 0 ("", 0)).1) startPos)
  else
    .ok (.Op (operationStrings.getD 0 ("", 0)).1 tokens)

/-- The two mutually recursive states of the parser: `token s` is
`parseToken` with the cursor at `s`; `loop startPos s tokens operationStrings`
is `parseOperation`'s collecting loop for the bracket opened at `startPos`,
cursor at `s`, with the sub-trees and operator strings collected so far. -/
inductive PCall where
  | token (s : ℕ)
  | loop (startPos s : ℕ) (tokens : List Expr) (operationStrings : List (String × ℕ))

/-- The parser body: `parseToken` dispatches on `(`, otherwise consumes and
classifies a literal token; the loop collects sub-trees and operator strings
until the closing bracket (missing bracket: `") expected"`), then runs the
`finishOperation` checks and steps past the `)`.  Each recursive call spends
one unit of fuel; `none` means the fuel ran out (never reached from
`parseWithBrackets`, see `parseF_isSome`). -/
def parseF (operationAtStart : Bool) (e : List Char) :
    ℕ → PCall → Option (Except ParseErr ((Expr ⊕ String) × ℕ))
  | 0, _ => none
  | fuel + 1, .token s =>
    if e.get? s = some '(' then
      parseF operationAtStart e fuel (.loop s (skipWs e (s + 1)) [] [])
    else
      let token := tokenChars e s
      some ((classifyToken s ⟨token⟩).map (fun r => (r, s + token.length)))
  | fuel + 1, .loop startPos s tokens operationStrings =>
    match e.get? s with
    | none => some (.error (.invalidFormat ") expected" (some s)))
    | some c =>
      if c = ')' then
        some ((finishOperation operationAtStart startPos tokens operationStrings).map
          (fun t => (Sum.inl t, s + 1)))
      else
        match parseF operationAtStart e fuel (.token s) with
        | none => none
        | some (.error err) => some (.error err)
        | some (.ok (.inr opStr, t)) =>
          parseF operationAtStart e fuel
            (.loop startPos (skipWs e t) tokens (operationStrings ++ [(opStr, tokens.length)]))
        | some (.ok (.inl node, t)) =>
          parseF operationAtStart e fuel
            (.loop startPos (skipWs e t) (tokens ++ [node]) operationStrings)

/-- `parseWithBrackets(operationAtStart)` applied to an expression string:
skip leading whitespace, parse one token, skip trailing whitespace; trailing
content is a format error and a bare operator symbol at top level is the one
format error raised without a position.  The fuel `3 * length + 3` always
suffices (`parseF_isSome`), so the `none` fallback is dead code. -/
def parseWithBrackets (operationAtStart : Bool) (expression : String) : Except ParseErr Expr :=
  let e := expression.data
  match parseF operationAtStart e (3 * e.length + 3) (.token (skipWs e 0)) with
  | none => .error (.invalidFormat "out of fuel (unreachable)" (some 0))
  | some (.error err) => .error err
  | some (.ok (res, s1)) =>
    let s2 := skipWs e s1
    if s2 < e.length then .error (.invalidFormat "Expected end of expression" (some s2))
    else
      match res with
      | .inr _ => .error (.invalidFormat "Invalid expression which contains only operation" none)
      | .inl t => .ok t

/-- `const parsePrefix = parseWithBrackets(true);` -/
def parsePrefix : String → Except ParseErr Expr := parseWithBrackets true

/-- `const parsePostfix = parseWithBrackets(false);` -/
def parsePostfix : String → Except ParseErr Expr := parseWithBrackets false

/-! Fuel metatheory: monotonicity, cursor progress and sufficiency of the
fuel `parseWithBrackets` supplies. -/

/-- The cursor of a parser state. -/
def PCall.pos : PCall → ℕ
  | .token s => s
  | .loop _ s _ _ => s

/-- The fuel that suffices for a parser state (see `parseF_isSome`). -/
def PCall.bound (e : List Char) : PCall → ℕ
  | .token s => 3 * (e.length - s) + 1
  | .loop _ s _ _ => 3 * (e.length - s) + 2

theorem classifyToken_ok_length {p : ℕ} {tok : String} {r}
    (h : classifyToken p tok = .ok r) : tok.length ≠ 0 := by
  intro h0
  simp [classifyToken, h0] at h

theorem get?_lt {α} {l : List α} {n : ℕ} {a : α} (h : l.get? n = some a) :
    n < l.length := by
  by_contra hn
  rw [List.get?_eq_none.mpr (by omega)] at h
  exact absurd h (by simp)

/-- More fuel never changes a result that was reached. -/
theorem parseF_mono (a : Bool) (e : List Char) :
    ∀ (f : ℕ) (c : PCall) (r) (g : ℕ), parseF a e f c = some r → f ≤ g →
      parseF a e g c = some r := by
  intro f
  induction f with
  | zero => intro c r g h _; simp [parseF] at h
  | succ f ih =>
    intro c r g h hfg
    obtain ⟨g, rfl⟩ : ∃ g', g = g' + 1 := ⟨g - 1, by omega⟩
    have hfg' : f ≤ g := by omega
    cases c with
    | token s =>
      by_cases hp : e.get? s = some '('
      · simp only [parseF, if_pos hp] at h ⊢
        exact ih _ _ _ h hfg'
      · simp only [parseF, if_neg hp] at h ⊢
        exact h
    | loop p s tks ops =>
      cases hc : e.get? s with
      | none => simp only [parseF, hc] at h ⊢; exact h
      | some ch =>
        by_cases hch : ch = ')'
        · simp only [parseF, hc, if_pos hch] at h ⊢; exact h
        · simp only [parseF, hc, if_neg hch] at h ⊢
          cases ht : parseF a e f (.token s) with
          | none => rw [ht] at h; exact absurd h (by simp)
          | some tr =>
            rw [ht] at h
            rw [ih _ _ _ ht hfg']
            cases tr with
            | error err => exact h
            | ok pr =>
              obtain ⟨x, t⟩ := pr
              cases x with
              | inl node => exact ih _ _ _ h hfg'
              | inr opStr => exact ih _ _ _ h hfg'

/-- A successful parse moves the cursor strictly forward. -/
theorem parseF_progress (a : Bool) (e : List Char) :
    ∀ (f : ℕ) (c : PCall) (x) (t : ℕ), parseF a e f c = some (.ok (x, t)) →
      c.pos < t := by
  intro f
  induction f with
  | zero => intro c x t h; simp [parseF] at h
  | succ f ih =>
    intro c x t h
    cases c with
    | token s =>
      by_cases hp : e.get? s = some '('
      · simp only [parseF, if_pos hp] at h
        have hlt := ih _ _ _ h
        have hskip : s + 1 ≤ skipWs e (s + 1) := Nat.le_add_right _ _
        simp only [PCall.pos] at hlt ⊢
        omega
      · simp only [parseF, if_neg hp] at h
        cases hcl : classifyToken s ⟨tokenChars e s⟩ with
        | error err => rw [hcl] at h; simp [Except.map] at h
        | ok r =>
          rw [hcl] at h
          simp only [Except.map, Option.some_inj, Except.ok.injEq, Prod.mk.injEq] at h
          obtain ⟨-, ht⟩ := h
          have hne := classifyToken_ok_length hcl
          have hlen : (tokenChars e s).length ≠ 0 := by
            intro h0
            exact hne (by simp [String.length, h0])
          simp only [PCall.pos]
          omega
    | loop p s tks ops =>
      cases hc : e.get? s with
      | none => simp only [parseF, hc] at h; exact absurd h (by simp)
      | some ch =>
        by_cases hch : ch = ')'
        · simp only [parseF, hc, if_pos hch] at h
          cases hf : finishOperation a p tks ops with
          | error err => rw [hf] at h; simp [Except.map] at h
          | ok node =>
            rw [hf] at h
            simp only [Except.map, Option.some_inj, Except.ok.injEq, Prod.mk.injEq] at h
            obtain ⟨-, ht⟩ := h
            simp only [PCall.pos]
            omega
        · simp only [parseF, hc, if_neg hch] at h
          cases ht : parseF a e f (.token s) with
          | none => rw [ht] at h; exact absurd h (by simp)
          | some tr =>
            rw [ht] at h
            cases tr with
            | error err => exact absurd h (by simp)
            | ok pr =>
              obtain ⟨x', t'⟩ := pr
              have hs : s < t' := ih _ _ _ ht
              have hsk : t' ≤ skipWs e t' := Nat.le_add_right _ _
              cases x' with
              | inl node =>
                have hlt := ih _ _ _ h
                simp only [PCall.pos] at hlt ⊢
                omega
              | inr opStr =>
                have hlt := ih _ _ _ h
                simp only [PCall.pos] at hlt ⊢
                omega

/-- With fuel at least the state's `bound`, the parser does not run out. -/
theorem parseF_isSome (a : Bool) (e : List Char) :
    ∀ (f : ℕ) (c : PCall), c.bound e ≤ f → (parseF a e f c).isSome := by
  intro f
  induction f with
  | zero => intro c hb; cases c <;> simp [PCall.bound] at hb
  | succ f ih =>
    intro c hb
    cases c with
    | token s =>
      by_cases hp : e.get? s = some '('
      · simp only [parseF, if_pos hp]
        have hs : s < e.length := get?_lt hp
        apply ih
        have hskip : s + 1 ≤ skipWs e (s + 1) := Nat.le_add_right _ _
        simp only [PCall.bound] at hb ⊢
        omega
      · simp only [parseF, if_neg hp]
        simp
    | loop p s tks ops =>
      cases hc : e.get? s with
      | none => simp only [parseF, hc]; simp
      | some ch =>
        by_cases hch : ch = ')'
        · simp only [parseF, hc, if_pos hch]; simp
        · simp only [parseF, hc, if_neg hch]
          have hs : s < e.length := get?_lt hc
          have htb : PCall.bound e (.token s) ≤ f := by
            simp only [PCall.bound] at hb ⊢
            omega
          cases ht : parseF a e f (.token s) with
          | none =>
            have hsome := ih _ htb
            rw [ht] at hsome
            exact absurd hsome (by simp)
          | some tr =>
            cases tr with
            | error err => simp
            | ok pr =>
              obtain ⟨x', t'⟩ := pr
              have hst : s < t' := parseF_progress a e f _ _ _ ht
              have hsk : t' ≤ skipWs e t' := Nat.le_add_right _ _
              cases x' with
              | inl node =>
                apply ih
                simp only [PCall.bound] at hb ⊢
                omega
              | inr opStr =>
                apply ih
                simp only [PCall.bound] at hb ⊢
                omega

/-! Structural invariants of parser-built trees. -/

/-- What the bracketed parsers guarantee about every node they build:
constants hold an integer or `NaN` (the possible results of `parseInt`),
variables are drawn from `vars`, and every operation node is registered with
at least one operand and the registered arity unless variadic. -/
inductive WFT : Expr → Prop where
  | const_num : ∀ (i : ℤ), WFT (.Const (.num (i : ℚ)))
  | const_nan : WFT (.Const .nan)
  | variable_mem : ∀ name, name ∈ vars → WFT (.Variable name)
  | op : ∀ sym args, isOperation sym = true → 1 ≤ args.length →
      (arity sym = 0 ∨ arity sym = args.length) → (∀ x ∈ args, WFT x) →
      WFT (.Op sym args)

/-- The arity invariant alone (claim C2): every operation node carries a
registered symbol, at least one operand, and the registered operand count
unless the arity is the variadic sentinel `0`. -/
inductive ArityOK : Expr → Prop where
  | const : ∀ v, ArityOK (.Const v)
  | variable_any : ∀ n, ArityOK (.Variable n)
  | op : ∀ sym args, isOperation sym = true → 1 ≤ args.length →
      (arity sym = 0 ∨ arity sym = args.length) → (∀ x ∈ args, ArityOK x) →
      ArityOK (.Op sym args)

/-- Trees with no `NaN` constant anywhere. -/
inductive NoNaN : Expr → Prop where
  | const : ∀ v, v ≠ .nan → NoNaN (.Const v)
  | variable_any : ∀ n, NoNaN (.Variable n)
  | op : ∀ sym args, (∀ x ∈ args, NoNaN x) → NoNaN (.Op sym args)

theorem WFT.arityOK {t : Expr} (h : WFT t) : ArityOK t := by
  induction h with
  | const_num i => exact .const _
  | const_nan => exact .const _
  | variable_mem n hn => exact .variable_any n
  | op sym args hop hlen har hall ih => exact .op sym args hop hlen har ih

/-- Trees whose constants are safe integers: magnitude below `2 ^ 53`
(`Number.MAX_SAFE_INTEGER`).  On this range the source's float64 `parseInt`
is exact and `Number.prototype.toString` prints the plain decimal digits, so
the embedding's exact-integer constants and decimal rendering coincide with
the program; beyond it `parseInt` rounds, and from `1e21` on `toString`
switches to exponential notation. -/
inductive SafeConsts : Expr → Prop where
  | const : ∀ (i : ℤ), i.natAbs < 2 ^ 53 → SafeConsts (.Const (.num (i : ℚ)))
  | variable_any : ∀ n, SafeConsts (.Variable n)
  | op : ∀ sym args, (∀ x ∈ args, SafeConsts x) → SafeConsts (.Op sym args)

theorem SafeConsts.noNaN {t : Expr} (h : SafeConsts t) : NoNaN t := by
  induction h with
  | const i hi => exact .const _ (by simp)
  | variable_any n => exact .variable_any n
  | op sym args hall ih => exact .op sym args ih

theorem parseIntDec_int_or_nan (sign : ℤ) (cs : List Char) :
    (∃ i : ℤ, parseIntDec sign cs = .num (i : ℚ)) ∨ parseIntDec sign cs = .nan := by
  unfold parseIntDec
  dsimp only
  split_ifs
  · exact .inr rfl
  · exact .inl ⟨_, rfl⟩

theorem jsParseIntBody_int_or_nan (sign : ℤ) (cs : List Char) :
    (∃ i : ℤ, jsParseIntBody sign cs = .num (i : ℚ)) ∨ jsParseIntBody sign cs = .nan := by
  rw [jsParseIntBody.eq_def]
  split
  · split_ifs
    · exact .inr rfl
    · exact .inl ⟨_, rfl⟩
    · exact parseIntDec_int_or_nan _ _
  · exact parseIntDec_int_or_nan _ _

/-- `parseInt` yields an integer or `NaN`. -/
theorem jsParseInt_int_or_nan (s : String) :
    (∃ i : ℤ, jsParseInt s = .num (i : ℚ)) ∨ jsParseInt s = .nan := by
  rw [jsParseInt, jsParseIntSigned.eq_def]
  split
  all_goals exact jsParseIntBody_int_or_nan _ _

/-- A successfully classified literal token is a well-formed leaf. -/
theorem classifyToken_ok_inl {p : ℕ} {tok : String} {t : Expr}
    (h : classifyToken p tok = .ok (.inl t)) : WFT t := by
  by_cases h0 : tok.length = 0
  · rw [classifyToken, if_pos h0] at h; exact absurd h (by simp)
  rw [classifyToken, if_neg h0] at h
  by_cases hv : vars.contains tok = true
  · rw [if_pos hv] at h
    obtain rfl : Expr.Variable tok = t := by simpa using h
    exact WFT.variable_mem tok (by simpa using hv)
  rw [if_neg hv] at h
  by_cases hn : jsIsNumeric tok = true
  · rw [if_pos hn] at h
    obtain rfl : Expr.Const (jsParseInt tok) = t := by simpa using h
    rcases jsParseInt_int_or_nan tok with ⟨i, hi⟩ | hi
    · rw [hi]; exact WFT.const_num i
    · rw [hi]; exact WFT.const_nan
  rw [if_neg hn] at h
  by_cases hop : isOperation tok = true
  · rw [if_pos hop] at h; exact absurd h (by simp)
  · rw [if_neg hop] at h; exact absurd h (by simp)

/-- A raw operator string returned by classification is the token itself and
is registered. -/
theorem classifyToken_ok_inr {p : ℕ} {tok : String} {sym : String}
    (h : classifyToken p tok = .ok (.inr sym)) :
    sym = tok ∧ isOperation sym = true := by
  by_cases h0 : tok.length = 0
  · rw [classifyToken, if_pos h0] at h; exact absurd h (by simp)
  rw [classifyToken, if_neg h0] at h
  by_cases hv : vars.contains tok = true
  · rw [if_pos hv] at h; exact absurd h (by simp)
  rw [if_neg hv] at h
  by_cases hn : jsIsNumeric tok = true
  · rw [if_pos hn] at h; exact absurd h (by simp)
  rw [if_neg hn] at h
  by_cases hop : isOperation tok = true
  · rw [if_pos hop] at h
    obtain rfl : tok = sym := by simpa using h
    exact ⟨rfl, hop⟩
  · rw [if_neg hop] at h; exact absurd h (by simp)

/-- What a successful `finishOperation` certifies: exactly one operator
string, at the mode's position, and a valid operand count. -/
theorem finishOperation_ok {a : Bool} {p : ℕ} {tks : List Expr}
    {ops : List (String × ℕ)} {t : Expr}
    (h : finishOperation a p tks ops = .ok t) :
    ∃ sym i, ops = [(sym, i)] ∧ i = (if a then 0 else tks.length) ∧
      t = .Op sym tks ∧ 1 ≤ tks.length ∧
      (arity sym = 0 ∨ arity sym = tks.length) := by
  by_cases h1 : ops.length ≠ 1
  · rw [finishOperation, if_pos h1] at h; exact absurd h (by simp)
  obtain ⟨⟨sym, i⟩, rfl⟩ := List.length_eq_one.mp (not_not.mp h1)
  rw [finishOperation, if_neg h1] at h
  simp only [List.getD_cons_zero] at h
  by_cases h2 : i ≠ (if a then 0 else tks.length)
  · rw [if_pos h2] at h; exact absurd h (by simp)
  rw [if_neg h2] at h
  by_cases h3 : tks.length = 0 ∨ (arity sym ≠ 0 ∧ arity sym ≠ tks.length)
  · rw [if_pos h3] at h; exact absurd h (by simp)
  rw [if_neg h3] at h
  obtain rfl : Expr.Op sym tks = t := by simpa using h
  push_neg at h3
  refine ⟨sym, i, rfl, not_not.mp h2, rfl, by omega, ?_⟩
  by_cases hz : arity sym = 0
  · exact .inl hz
  · exact .inr (h3.2 hz)

/-- The invariant the loop state carries: collected sub-trees are well
formed and collected operator strings are registered. -/
def LoopInv : PCall → Prop
  | .token _ => True
  | .loop _ _ tks ops => (∀ t ∈ tks, WFT t) ∧ (∀ pr ∈ ops, isOperation pr.1 = true)

/-- Soundness of the parser body: every tree it returns is well formed, and
every raw operator string it returns is registered. -/
theorem parseF_sound (a : Bool) (e : List Char) :
    ∀ (f : ℕ) (c : PCall) (x) (t : ℕ), parseF a e f c = some (.ok (x, t)) →
      LoopInv c →
      (∀ node, x = .inl node → WFT node) ∧
      (∀ sym, x = .inr sym → isOperation sym = true) := by
  intro f
  induction f with
  | zero => intro c x t h _; simp [parseF] at h
  | succ f ih =>
    intro c x t h hinv
    cases c with
    | token s =>
      by_cases hp : e.get? s = some '('
      · simp only [parseF, if_pos hp] at h
        exact ih _ _ _ h ⟨by simp, by simp⟩
      · simp only [parseF, if_neg hp] at h
        cases hcl : classifyToken s ⟨tokenChars e s⟩ with
        | error err => rw [hcl] at h; simp [Except.map] at h
        | ok r =>
          rw [hcl] at h
          simp only [Except.map, Option.some_inj, Except.ok.injEq, Prod.mk.injEq] at h
          obtain ⟨rfl, -⟩ := h
          constructor
          · rintro node rfl
            exact classifyToken_ok_inl hcl
          · rintro sym rfl
            exact (classifyToken_ok_inr hcl).2
    | loop p s tks ops =>
      cases hc : e.get? s with
      | none => simp only [parseF, hc] at h; exact absurd h (by simp)
      | some ch =>
        by_cases hch : ch = ')'
        · simp only [parseF, hc, if_pos hch] at h
          cases hf : finishOperation a p tks ops with
          | error err => rw [hf] at h; simp [Except.map] at h
          | ok node =>
            rw [hf] at h
            simp only [Except.map, Option.some_inj, Except.ok.injEq, Prod.mk.injEq] at h
            obtain ⟨rfl, -⟩ := h
            obtain ⟨sym, i, rfl, -, rfl, hlen, har⟩ := finishOperation_ok hf
            have hop : isOperation sym = true := hinv.2 (sym, i) (by simp)
            constructor
            · intro node hn
              obtain rfl : Expr.Op sym tks = node := by simpa using hn
              exact WFT.op sym tks hop hlen har hinv.1
            · intro sym' hcontra
              simp at hcontra
        · simp only [parseF, hc, if_neg hch] at h
          cases ht : parseF a e f (.token s) with
          | none => rw [ht] at h; exact absurd h (by simp)
          | some tr =>
            rw [ht] at h
            cases tr with
            | error err => exact absurd h (by simp)
            | ok pr =>
              obtain ⟨x', t'⟩ := pr
              have hsound := ih _ _ _ ht trivial
              cases x' with
              | inl node =>
                refine ih _ _ _ h ⟨?_, hinv.2⟩
                intro u hu
                rcases List.mem_append.mp hu with hu | hu
                · exact hinv.1 u hu
                · rw [List.mem_singleton.mp hu]
                  exact hsound.1 node rfl
              | inr opStr =>
                refine ih _ _ _ h ⟨hinv.1, ?_⟩
                intro pr hpr
                rcases List.mem_append.mp hpr with hpr | hpr
                · exact hinv.2 pr hpr
                · rw [List.mem_singleton.mp hpr]
                  exact hsound.2 opStr rfl

/-- Every tree either bracketed parser returns is well formed. -/
theorem parseWithBrackets_ok_WFT {a : Bool} {str : String} {t : Expr}
    (h : parseWithBrackets a str = .ok t) : WFT t := by
  unfold parseWithBrackets at h
  dsimp only at h
  cases hp : parseF a str.data (3 * str.data.length + 3) (.token (skipWs str.data 0)) with
  | none => rw [hp] at h; exact absurd h (by simp)
  | some r =>
    rw [hp] at h
    cases r with
    | error err => exact absurd h (by simp)
    | ok pr =>
      obtain ⟨x, s1⟩ := pr
      dsimp only at h
      by_cases hend : skipWs str.data s1 < str.data.length
      · rw [if_pos hend] at h; exact absurd h (by simp)
      · rw [if_neg hend] at h
        cases x with
        | inr sym => exact absurd h (by simp)
        | inl node =>
          obtain rfl : node = t := by simpa using h
          exact (parseF_sound a str.data _ _ _ _ hp trivial).1 node rfl

/-- An error that carries its character offset (the `InvalidOperationError`
constructor always does). -/
def errHasPos : ParseErr → Prop
  | .invalidFormat _ p => p ≠ none
  | .invalidOperation _ _ => True

theorem classifyToken_err {p : ℕ} {tok : String} {err : ParseErr}
    (h : classifyToken p tok = .error err) : errHasPos err := by
  unfold classifyToken at h
  split_ifs at h
  all_goals first
    | (obtain rfl : _ = err := by simpa using h
       simp [errHasPos])
    | exact absurd h (by simp)

theorem finishOperation_err {a : Bool} {p : ℕ} {tks : List Expr}
    {ops : List (String × ℕ)} {err : ParseErr}
    (h : finishOperation a p tks ops = .error err) : errHasPos err := by
  unfold finishOperation at h
  split_ifs at h
  all_goals first
    | (obtain rfl : _ = err := by simpa using h
       simp [errHasPos])
    | exact absurd h (by simp)

/-- Every error the parser body raises carries its offset. -/
theorem parseF_err (a : Bool) (e : List Char) :
    ∀ (f : ℕ) (c : PCall) (err : ParseErr), parseF a e f c = some (.error err) →
      errHasPos err := by
  intro f
  induction f with
  | zero => intro c err h; simp [parseF] at h
  | succ f ih =>
    intro c err h
    cases c with
    | token s =>
      by_cases hp : e.get? s = some '('
      · simp only [parseF, if_pos hp] at h
        exact ih _ _ h
      · simp only [parseF, if_neg hp] at h
        cases hcl : classifyToken s ⟨tokenChars e s⟩ with
        | error err' =>
          rw [hcl] at h
          obtain rfl : err' = err := by simpa [Except.map] using h
          exact classifyToken_err hcl
        | ok r => rw [hcl] at h; simp [Except.map] at h
    | loop p s tks ops =>
      cases hc : e.get? s with
      | none =>
        simp only [parseF, hc] at h
        obtain rfl : ParseErr.invalidFormat ") expected" (some s) = err := by simpa using h
        simp [errHasPos]
      | some ch =>
        by_cases hch : ch = ')'
        · simp only [parseF, hc, if_pos hch] at h
          cases hf : finishOperation a p tks ops with
          | error err' =>
            rw [hf] at h
            obtain rfl : err' = err := by simpa [Except.map] using h
            exact finishOperation_err hf
          | ok node => rw [hf] at h; simp [Except.map] at h
        · simp only [parseF, hc, if_neg hch] at h
          cases ht : parseF a e f (.token s) with
          | none => rw [ht] at h; exact absurd h (by simp)
          | some tr =>
            rw [ht] at h
            cases tr with
            | error err' =>
              obtain rfl : err' = err := by simpa using h
              exact ih _ _ ht
            | ok pr =>
              obtain ⟨x', t'⟩ := pr
              cases x' with
              | inl node => exact ih _ _ h
              | inr opStr => exact ih _ _ h

/-- Every error either bracketed parser raises carries its offset, except the
one top-level `InvalidFormatError` for a bare operator symbol, which the
source raises without a position. -/
theorem parseWithBrackets_err {a : Bool} {str : String} {err : ParseErr}
    (h : parseWithBrackets a str = .error err) :
    errHasPos err ∨
      err = .invalidFormat "Invalid expression which contains only operation" none := by
  unfold parseWithBrackets at h
  dsimp only at h
  cases hp : parseF a str.data (3 * str.data.length + 3) (.token (skipWs str.data 0)) with
  | none =>
    rw [hp] at h
    obtain rfl : _ = err := by simpa using h
    left; simp [errHasPos]
  | some r =>
    rw [hp] at h
    cases r with
    | error err' =>
      obtain rfl : err' = err := by simpa using h
      exact .inl (parseF_err a str.data _ _ _ hp)
    | ok pr =>
      obtain ⟨x, s1⟩ := pr
      dsimp only at h
      by_cases hend : skipWs str.data s1 < str.data.length
      · rw [if_pos hend] at h
        obtain rfl : _ = err := by simpa using h
        left; simp [errHasPos]
      · rw [if_neg hend] at h
        cases x with
        | inr sym =>
          obtain rfl : _ = err := by simpa using h
          right; rfl
        | inl node => exact absurd h (by simp)

/-! Plumbing for the re-parse (round-trip) proof: how `skipWs` and
`tokenChars` behave on a suffix of known shape, and token facts about the
concrete symbol tables and digit strings. -/

theorem drop_get? {e : List Char} {s : ℕ} {c : Char} {r : List Char}
    (h : e.drop s = c :: r) : e.get? s = some c := by
  have h0 : (e.drop s).get? 0 = some c := by rw [h]; rfl
  rwa [List.get?_drop, Nat.add_zero] at h0

theorem drop_succ_of_drop {e : List Char} {s : ℕ} {c : Char} {r : List Char}
    (h : e.drop s = c :: r) : e.drop (s + 1) = r := by
  have h1 : (e.drop s).drop 1 = r := by rw [h]; rfl
  rw [List.drop_drop] at h1
  exact h1

theorem skipWs_of_head {e : List Char} {s : ℕ} {c : Char} {r : List Char}
    (h : e.drop s = c :: r) (hc : jsIsWhitespace c = false) : skipWs e s = s := by
  simp [skipWs, h, countWsPrefix, hc]

theorem skipWs_of_end {e : List Char} {s : ℕ} (h : e.drop s = []) : skipWs e s = s := by
  simp [skipWs, h, countWsPrefix]

theorem skipWs_space {e : List Char} {s : ℕ} {r : List Char}
    (h : e.drop s = ' ' :: r) : skipWs e s = skipWs e (s + 1) := by
  have h1 : e.drop (s + 1) = r := drop_succ_of_drop h
  have hws : jsIsWhitespace ' ' = true := rfl
  simp [skipWs, h, h1, countWsPrefix, hws]
  omega

theorem takeWhile_append_boundary {p : Char → Bool} :
    ∀ (tok rest : List Char), (∀ c ∈ tok, p c = true) →
      (rest = [] ∨ ∃ c r, rest = c :: r ∧ p c = false) →
      (tok ++ rest).takeWhile p = tok := by
  intro tok
  induction tok with
  | nil =>
    intro rest _ hb
    rcases hb with rfl | ⟨c, r, rfl, hc⟩
    · rfl
    · simp [List.takeWhile_cons, hc]
  | cons c tok ih =>
    intro rest hall hb
    have hc : p c = true := hall c (by simp)
    simp [List.takeWhile_cons, hc, ih rest (fun x hx => hall x (by simp [hx])) hb]

/-- The boundary after a rendered token: end of input, a space, or a closing
bracket. -/
def BoundaryRest (rest : List Char) : Prop :=
  rest = [] ∨ ∃ c r, rest = c :: r ∧ (c = ' ' ∨ c = ')')

theorem tokenChars_of_drop {e : List Char} {s : ℕ} {tok rest : List Char}
    (h : e.drop s = tok ++ rest) (hall : ∀ c ∈ tok, isTokenChar c = true)
    (hb : BoundaryRest rest) : tokenChars e s = tok := by
  rw [tokenChars, h]
  refine takeWhile_append_boundary tok rest hall ?_
  rcases hb with rfl | ⟨c, r, rfl, hc⟩
  · exact .inl rfl
  · refine .inr ⟨c, r, rfl, ?_⟩
    rcases hc with rfl | rfl <;> rfl

/-- Token facts for each registered operator symbol, checked by computation. -/
theorem opSym_facts : ∀ sym ∈ operations,
    vars.contains sym = false ∧ jsIsNumeric sym = false ∧ isOperation sym = true ∧
      sym.data ≠ [] ∧ (∀ c ∈ sym.data, isTokenChar c = true) ∧
      (∀ c ∈ sym.data, jsIsWhitespace c = false) := by decide

/-- Token facts for each recognized variable name, checked by computation. -/
theorem var_facts : ∀ v ∈ vars,
    vars.contains v = true ∧ v.data ≠ [] ∧ (∀ c ∈ v.data, isTokenChar c = true) ∧
      (∀ c ∈ v.data, jsIsWhitespace c = false) := by decide

theorem digitChar_facts {d : ℕ} (h : d < 10) :
    (digitChar d).isDigit = true ∧ isTokenChar (digitChar d) = true ∧
      jsIsWhitespace (digitChar d) = false ∧ decVal (digitChar d) = d ∧
      (digitChar d = 'x') = False ∧ (digitChar d = 'X') = False ∧
      (digitChar d = 'o') = False ∧ (digitChar d = 'O') = False ∧
      (digitChar d = 'b') = False ∧ (digitChar d = 'B') = False ∧
      (digitChar d = '-') = False ∧ (digitChar d = '+') = False := by
  interval_cases d <;> refine ⟨by decide, by decide, by decide, by decide, by decide,
    by decide, by decide, by decide, by decide, by decide, by decide, by decide⟩

theorem natToChars_ne_nil (n : ℕ) : natToChars n ≠ [] := by
  rw [natToChars]
  split_ifs with h
  · simp
  · simp [Nat.digits_ne_nil_iff_ne_zero.mpr h]

theorem natToChars_all_digits (n : ℕ) : ∀ c ∈ natToChars n, ∃ d, d < 10 ∧ c = digitChar d := by
  intro c hc
  rw [natToChars] at hc
  split_ifs at hc with h
  · refine ⟨0, by omega, ?_⟩
    simpa [digitChar] using hc
  · rw [List.mem_reverse, List.mem_map] at hc
    obtain ⟨d, hd, rfl⟩ := hc
    exact ⟨d, Nat.digits_lt_base (by omega) hd, rfl⟩

theorem intToChars_shape (i : ℤ) :
    (i < 0 ∧ intToChars i = '-' :: natToChars i.natAbs) ∨
      (0 ≤ i ∧ intToChars i = natToChars i.natAbs) := by
  rw [intToChars]
  split_ifs with h
  · exact .inl ⟨h, rfl⟩
  · exact .inr ⟨by omega, rfl⟩

theorem intToChars_ne_nil (i : ℤ) : intToChars i ≠ [] := by
  rcases intToChars_shape i with ⟨-, h⟩ | ⟨-, h⟩ <;> rw [h]
  · simp
  · exact natToChars_ne_nil _

theorem intToChars_all_token (i : ℤ) :
    (∀ c ∈ intToChars i, isTokenChar c = true) ∧
      (∀ c ∈ intToChars i, jsIsWhitespace c = false) := by
  have hnat : ∀ n, (∀ c ∈ natToChars n, isTokenChar c = true) ∧
      (∀ c ∈ natToChars n, jsIsWhitespace c = false) := by
    intro n
    constructor <;> intro c hc <;>
      obtain ⟨d, hd, rfl⟩ := natToChars_all_digits n c hc
    · exact (digitChar_facts hd).2.1
    · exact (digitChar_facts hd).2.2.1
  rcases intToChars_shape i with ⟨-, h⟩ | ⟨-, h⟩ <;> rw [h]
  · constructor <;> intro c hc <;> rcases List.mem_cons.mp hc with rfl | hc
    · decide
    · exact (hnat _).1 c hc
    · decide
    · exact (hnat _).2 c hc
  · exact hnat _

theorem dropWhile_eq_self_of {p : Char → Bool} {l : List Char}
    (h : ∀ c ∈ l, p c = false) : l.dropWhile p = l := by
  cases l with
  | nil => rfl
  | cons c r => simp [List.dropWhile_cons, h c (by simp)]

theorem dropWhile_eq_nil_of {p : Char → Bool} :
    ∀ {l : List Char}, (∀ c ∈ l, p c = true) → l.dropWhile p = [] := by
  intro l
  induction l with
  | nil => intro _; rfl
  | cons c r ih =>
    intro h
    simp [List.dropWhile_cons, h c (by simp), ih (fun x hx => h x (by simp [hx]))]

theorem takeWhile_eq_self_of {p : Char → Bool} {l : List Char}
    (h : ∀ c ∈ l, p c = true) : l.takeWhile p = l := by
  have := takeWhile_append_boundary (p := p) l [] h (.inl rfl)
  simpa using this

theorem natToChars_all_isDigit (n : ℕ) : ∀ c ∈ natToChars n, c.isDigit = true := by
  intro c hc
  obtain ⟨d, hd, rfl⟩ := natToChars_all_digits n c hc
  exact (digitChar_facts hd).1

theorem digitsToNat_append (f : Char → ℕ) (l : List Char) (c : Char) :
    digitsToNat 10 f (l ++ [c]) = digitsToNat 10 f l * 10 + f c := by
  simp [digitsToNat, List.foldl_append]

theorem digitsToNat_rev_map (L : List ℕ) (h : ∀ d ∈ L, d < 10) :
    digitsToNat 10 decVal ((L.map digitChar).reverse) = Nat.ofDigits 10 L := by
  induction L with
  | nil => simp [digitsToNat, Nat.ofDigits]
  | cons d L ih =>
    rw [List.map_cons, List.reverse_cons, digitsToNat_append,
      ih (fun x hx => h x (by simp [hx])), Nat.ofDigits_cons,
      (digitChar_facts (h d (by simp))).2.2.2.1]
    ring

theorem digitsToNat_natToChars (n : ℕ) : digitsToNat 10 decVal (natToChars n) = n := by
  rw [natToChars]
  split_ifs with h
  · subst h; decide
  · rw [digitsToNat_rev_map _ (fun d hd => Nat.digits_lt_base (by omega) hd),
      Nat.ofDigits_digits]

theorem parseIntDec_natToChars (sign : ℤ) (n : ℕ) :
    parseIntDec sign (natToChars n) = .num ((sign * n : ℤ) : ℚ) := by
  unfold parseIntDec
  dsimp only
  rw [takeWhile_eq_self_of (natToChars_all_isDigit n),
    if_neg (by simp [natToChars_ne_nil n]), digitsToNat_natToChars]

theorem jsParseIntBody_natToChars (sign : ℤ) (n : ℕ) :
    jsParseIntBody sign (natToChars n) = .num ((sign * n : ℤ) : ℚ) := by
  rw [jsParseIntBody.eq_def]
  split
  · next c r heq =>
    have hc : c ∈ natToChars n := by rw [heq]; simp
    obtain ⟨d, hd, rfl⟩ := natToChars_all_digits n c hc
    rw [if_neg (by simp [(digitChar_facts hd).2.2.2.2.1,
      (digitChar_facts hd).2.2.2.2.2.1])]
    rw [← heq]
    exact parseIntDec_natToChars sign n
  · exact parseIntDec_natToChars sign n

theorem jsParseInt_intToChars (i : ℤ) : jsParseInt ⟨intToChars i⟩ = .num (i : ℚ) := by
  rw [jsParseInt]
  have hdata : (⟨intToChars i⟩ : String).data = intToChars i := rfl
  rw [hdata, dropWhile_eq_self_of (intToChars_all_token i).2]
  rcases intToChars_shape i with ⟨hneg, hshape⟩ | ⟨hpos, hshape⟩
  · rw [hshape]
    rw [show jsParseIntSigned ('-' :: natToChars i.natAbs) =
      jsParseIntBody (-1) (natToChars i.natAbs) from rfl]
    rw [jsParseIntBody_natToChars]
    have h2 : ((-1 : ℤ) * (i.natAbs : ℤ) : ℤ) = i := by omega
    rw [h2]
  · rw [hshape, jsParseIntSigned.eq_def]
    split
    · next r heq =>
      exfalso
      have hc : '-' ∈ natToChars i.natAbs := by rw [heq]; simp
      obtain ⟨d, hd, hdc⟩ := natToChars_all_digits _ _ hc
      have : ('-' : Char).isDigit = true := hdc ▸ (digitChar_facts hd).1
      exact absurd this (by decide)
    · next r heq =>
      exfalso
      have hc : '+' ∈ natToChars i.natAbs := by rw [heq]; simp
      obtain ⟨d, hd, hdc⟩ := natToChars_all_digits _ _ hc
      have : ('+' : Char).isDigit = true := hdc ▸ (digitChar_facts hd).1
      exact absurd this (by decide)
    · rw [jsParseIntBody_natToChars]
      have h2 : ((1 : ℤ) * (i.natAbs : ℤ) : ℤ) = i := by omega
      rw [h2]

theorem jsTrimChars_eq_self {l : List Char}
    (h : ∀ c ∈ l, jsIsWhitespace c = false) : jsTrimChars l = l := by
  unfold jsTrimChars
  rw [dropWhile_eq_self_of h,
    dropWhile_eq_self_of (fun c hc => h c (List.mem_reverse.mp hc)),
    List.reverse_reverse]

theorem jsDecimalForm_natToChars (n : ℕ) : jsDecimalForm (natToChars n) = true := by
  rw [jsDecimalForm]
  dsimp only
  rw [dropWhile_eq_nil_of (natToChars_all_isDigit n),
    takeWhile_eq_self_of (natToChars_all_isDigit n)]
  simp [natToChars_ne_nil n]

theorem signedDecOrInf_natToChars (n : ℕ) : signedDecOrInf (natToChars n) = true := by
  rw [signedDecOrInf.eq_def]
  dsimp only
  split
  · next r heq =>
    exfalso
    have hc : '+' ∈ natToChars n := by rw [heq]; simp
    obtain ⟨d, hd, hdc⟩ := natToChars_all_digits _ _ hc
    have : ('+' : Char).isDigit = true := hdc ▸ (digitChar_facts hd).1
    exact absurd this (by decide)
  · next r heq =>
    exfalso
    have hc : '-' ∈ natToChars n := by rw [heq]; simp
    obtain ⟨d, hd, hdc⟩ := natToChars_all_digits _ _ hc
    have : ('-' : Char).isDigit = true := hdc ▸ (digitChar_facts hd).1
    exact absurd this (by decide)
  · simp [jsDecimalForm_natToChars n]

theorem signedDecOrInf_intToChars (i : ℤ) : signedDecOrInf (intToChars i) = true := by
  rcases intToChars_shape i with ⟨-, hshape⟩ | ⟨-, hshape⟩ <;> rw [hshape]
  · rw [show signedDecOrInf ('-' :: natToChars i.natAbs) =
      (natToChars i.natAbs = "Infinity".data || jsDecimalForm (natToChars i.natAbs)) from rfl]
    simp [jsDecimalForm_natToChars]
  · exact signedDecOrInf_natToChars _

theorem jsIsNumeric_intToChars (i : ℤ) : jsIsNumeric ⟨intToChars i⟩ = true := by
  rw [jsIsNumeric.eq_def]
  have hdata : (⟨intToChars i⟩ : String).data = intToChars i := rfl
  rw [hdata, jsTrimChars_eq_self (intToChars_all_token i).2]
  split
  · next heq => exact absurd heq (intToChars_ne_nil i)
  · next c r heq =>
    rcases intToChars_shape i with ⟨-, hs⟩ | ⟨-, hs⟩ <;> rw [hs] at heq
    · exfalso
      injection heq with h1 h2
      exact absurd h1 (by decide)
    · have hc2 : c ∈ natToChars i.natAbs := by rw [heq]; simp
      obtain ⟨d, hd, rfl⟩ := natToChars_all_digits _ _ hc2
      have hf := digitChar_facts hd
      rw [if_neg (by simp [hf.2.2.2.2.1, hf.2.2.2.2.2.1]),
        if_neg (by simp [hf.2.2.2.2.2.2.1, hf.2.2.2.2.2.2.2.1]),
        if_neg (by simp [hf.2.2.2.2.2.2.2.2.1, hf.2.2.2.2.2.2.2.2.2.1]),
        ← heq]
      exact signedDecOrInf_natToChars _
  · exact signedDecOrInf_intToChars i

theorem intToChars_head {i : ℤ} {c : Char} {r : List Char}
    (h : intToChars i = c :: r) : c = '-' ∨ c.isDigit = true := by
  rcases intToChars_shape i with ⟨-, hs⟩ | ⟨-, hs⟩ <;> rw [hs] at h
  · injection h with h1 h2
    exact .inl h1.symm
  · right
    have hc : c ∈ natToChars i.natAbs := by rw [h]; simp
    obtain ⟨d, hd, rfl⟩ := natToChars_all_digits _ _ hc
    exact (digitChar_facts hd).1

theorem vars_not_contains_intToChars (i : ℤ) :
    vars.contains (⟨intToChars i⟩ : String) = false := by
  rw [Bool.eq_false_iff]
  intro hc
  have hm : (⟨intToChars i⟩ : String) ∈ vars := by simpa using hc
  have hd : intToChars i = ['x'] ∨ intToChars i = ['y'] ∨ intToChars i = ['z'] := by
    simp only [vars, List.mem_cons, List.not_mem_nil, or_false] at hm
    rcases hm with hm | hm | hm <;>
      [left; (right; left); (right; right)] <;>
      exact congrArg String.data hm
  have : ∃ c r, intToChars i = c :: r ∧ c ≠ '-' ∧ c.isDigit = false := by
    rcases hd with hd | hd | hd <;> exact ⟨_, _, hd, by decide, by decide⟩
  obtain ⟨c, r, hcr, hne, hnd⟩ := this
  rcases intToChars_head hcr with h | h
  · exact hne h
  · rw [h] at hnd; cases hnd

/-! The re-parse (round-trip) machinery: a rendered tree, dropped into the
input at the cursor, parses back to the same tree. -/

/-- The rendering re-parsed by `parseWithBrackets atStart`. -/
def renderChars (atStart : Bool) (t : Expr) : List Char :=
  if atStart then prefixChars t else postfixChars t

/-- The characters of one top-level item inside a bracket: a rendered operand
sub-tree or the operator symbol. -/
def itemChars (atStart : Bool) : Expr ⊕ String → List Char
  | .inl t => renderChars atStart t
  | .inr sym => sym.data

/-- The blank-joined characters of the items inside a bracket. -/
def seqChars (atStart : Bool) (items : List (Expr ⊕ String)) : List Char :=
  joinSpace (items.map (itemChars atStart))

/-- The operand sub-trees among the items, in order. -/
def itemsTrees : List (Expr ⊕ String) → List Expr
  | [] => []
  | .inl t :: r => t :: itemsTrees r
  | .inr _ :: r => itemsTrees r

/-- The operator strings among the items with the positions the loop records,
starting from `k` collected operands. -/
def itemsOps : ℕ → List (Expr ⊕ String) → List (String × ℕ)
  | _, [] => []
  | k, .inl _ :: r => itemsOps (k + 1) r
  | k, .inr sym :: r => (sym, k) :: itemsOps k r

theorem joinSpace_cons {x : List Char} {l : List (List Char)} (h : l ≠ []) :
    joinSpace (x :: l) = x ++ ' ' :: joinSpace l := by
  cases l with
  | nil => exact absurd rfl h
  | cons y r => rfl

theorem joinSpace_append_singleton {l : List (List Char)} {x : List Char} (h : l ≠ []) :
    joinSpace (l ++ [x]) = joinSpace l ++ ' ' :: x := by
  induction l with
  | nil => exact absurd rfl h
  | cons y r ih =>
    cases r with
    | nil => rfl
    | cons z r' =>
      have h1 : joinSpace (y :: ((z :: r') ++ [x])) =
          y ++ ' ' :: joinSpace ((z :: r') ++ [x]) := joinSpace_cons (by simp)
      have h2 : joinSpace (y :: z :: r') = y ++ ' ' :: joinSpace (z :: r') :=
        joinSpace_cons (by simp)
      rw [List.cons_append, h1, ih (by simp), h2]
      simp

theorem drop_add_of_drop {e : List Char} {s : ℕ} {A B : List Char}
    (h : e.drop s = A ++ B) : e.drop (s + A.length) = B := by
  have h1 : (e.drop s).drop A.length = B := by rw [h, List.drop_left]
  rwa [List.drop_drop] at h1

theorem itemsTrees_map_inl (l : List Expr) : itemsTrees (l.map .inl) = l := by
  induction l with
  | nil => rfl
  | cons x r ih => simp [itemsTrees, ih]

theorem itemsTrees_map_inl_append (l : List Expr) (r : List (Expr ⊕ String)) :
    itemsTrees (l.map .inl ++ r) = l ++ itemsTrees r := by
  induction l with
  | nil => rfl
  | cons x xs ih => simp [itemsTrees, ih]

theorem itemsOps_map_inl_append (l : List Expr) (r : List (Expr ⊕ String)) :
    ∀ k, itemsOps k (l.map .inl ++ r) = itemsOps (k + l.length) r := by
  induction l with
  | nil => intro k; simp [itemsOps]
  | cons x xs ih =>
    intro k
    rw [List.map_cons, List.cons_append,
      show itemsOps k (Sum.inl x :: (xs.map Sum.inl ++ r)) =
        itemsOps (k + 1) (xs.map Sum.inl ++ r) from rfl,
      ih (k + 1)]
    congr 1
    simp
    omega

/-- The head of a rendered well-formed tree: nonempty, not whitespace, not a
closing bracket. -/
theorem renderChars_head (atStart : Bool) {t : Expr} (hw : WFT t) (hn : NoNaN t) :
    ∃ c r, renderChars atStart t = c :: r ∧ jsIsWhitespace c = false ∧ c ≠ ')' := by
  cases hw with
  | const_num i =>
    have hv : numToChars (.num (i : ℚ)) = intToChars i := by
      rw [numToChars]
      rw [if_pos (Rat.den_intCast i), Rat.num_intCast]
    have hrc : renderChars atStart (.Const (.num (i : ℚ))) = intToChars i := by
      cases atStart <;> simp [renderChars, hv]
    obtain ⟨c, r, hcr⟩ : ∃ c r, intToChars i = c :: r := by
      rcases hl : intToChars i with _ | ⟨c, r⟩
      · exact absurd hl (intToChars_ne_nil i)
      · exact ⟨c, r, rfl⟩
    refine ⟨c, r, by rw [hrc, hcr], ?_, ?_⟩
    · exact (intToChars_all_token i).2 c (by rw [hcr]; simp)
    · have := (intToChars_all_token i).1 c (by rw [hcr]; simp)
      intro hcc
      rw [hcc] at this
      exact absurd this (by decide)
  | const_nan =>
    exfalso
    cases hn with
    | const v hv => exact hv rfl
  | variable_mem name hname =>
    obtain ⟨-, hne, htok, hws⟩ := var_facts name hname
    obtain ⟨c, r, hcr⟩ : ∃ c r, name.data = c :: r := by
      rcases hl : name.data with _ | ⟨c, r⟩
      · exact absurd hl hne
      · exact ⟨c, r, rfl⟩
    have hrc : renderChars atStart (.Variable name) = name.data := by
      cases atStart <;> simp [renderChars]
    refine ⟨c, r, by rw [hrc, hcr], hws c (by rw [hcr]; simp), ?_⟩
    have := htok c (by rw [hcr]; simp)
    intro hcc
    rw [hcc] at this
    exact absurd this (by decide)
  | op sym args hop hlen har hall =>
    cases atStart with
    | true =>
      exact ⟨'(', sym.data ++ ' ' :: joinSpace (args.map prefixChars) ++ [')'],
        by simp [renderChars], by decide, by decide⟩
    | false =>
      exact ⟨'(', joinSpace (args.map postfixChars) ++ ' ' :: sym.data ++ [')'],
        by simp [renderChars], by decide, by decide⟩

/-- The token-level re-parse property of a tree: wherever its rendering sits
in the input with a token boundary after it, `parseToken` returns exactly the
tree and stops right after the rendering. -/
def TokSpec (atStart : Bool) (e : List Char) (t : Expr) : Prop :=
  ∀ s rest, e.drop s = renderChars atStart t ++ rest → BoundaryRest rest →
    ∃ f, parseF atStart e f (.token s) =
      some (.ok (.inl t, s + (renderChars atStart t).length))

/-- One `parseToken` step on a literal token of known extent and class. -/
theorem parseF_literal_token {atStart : Bool} {e : List Char} {s : ℕ}
    {tok rest : List Char} {res : Expr ⊕ String}
    (hdrop : e.drop s = tok ++ rest) (hall : ∀ c ∈ tok, isTokenChar c = true)
    (hb : BoundaryRest rest) (hne : tok ≠ [])
    (hclass : classifyToken s ⟨tok⟩ = .ok res) :
    parseF atStart e 1 (.token s) = some (.ok (res, s + tok.length)) := by
  obtain ⟨c0, tok', rfl⟩ := List.exists_cons_of_ne_nil hne
  have hget : e.get? s = some c0 := drop_get? (by rwa [List.cons_append] at hdrop)
  have hc0 : isTokenChar c0 = true := hall c0 (by simp)
  have hnp : ¬e.get? s = some '(' := by
    rw [hget]
    intro hcc
    injection hcc with hcc
    rw [hcc] at hc0
    exact absurd hc0 (by decide)
  simp only [parseF, if_neg hnp]
  rw [tokenChars_of_drop hdrop hall hb, hclass]
  rfl

theorem strLength_data (t : String) : t.length = t.data.length := rfl

/-- Classification of a variable-name token. -/
theorem classifyToken_var {s : ℕ} {name : String} (h : name ∈ vars) :
    classifyToken s name = .ok (.inl (.Variable name)) := by
  obtain ⟨hc, hne, -, -⟩ := var_facts name h
  rw [classifyToken,
    if_neg (by rw [strLength_data]; intro h0; exact hne (List.length_eq_zero.mp h0)),
    if_pos hc]

/-- Classification of a rendered integer constant. -/
theorem classifyToken_int (s : ℕ) (i : ℤ) :
    classifyToken s ⟨intToChars i⟩ = .ok (.inl (.Const (.num (i : ℚ)))) := by
  rw [classifyToken]
  rw [if_neg (by
      rw [strLength_data]
      intro h0
      exact intToChars_ne_nil i (List.length_eq_zero.mp h0)),
    if_neg (by rw [Bool.not_eq_true]; exact vars_not_contains_intToChars i),
    if_pos (jsIsNumeric_intToChars i), jsParseInt_intToChars]

/-- Classification of an operator-symbol token. -/
theorem classifyToken_op {s : ℕ} {sym : String} (h : sym ∈ operations) :
    classifyToken s sym = .ok (.inr sym) := by
  obtain ⟨hv, hn, hop, hne, -, -⟩ := opSym_facts sym h
  rw [classifyToken,
    if_neg (by rw [strLength_data]; intro h0; exact hne (List.length_eq_zero.mp h0)),
    if_neg (by rw [Bool.not_eq_true]; exact hv),
    if_neg (by rw [Bool.not_eq_true]; exact hn), if_pos hop]

/-- `numToChars` of an integer-valued constant. -/
theorem numToChars_int (i : ℤ) : numToChars (.num (i : ℚ)) = intToChars i := by
  rw [numToChars, if_pos (Rat.den_intCast i), Rat.num_intCast]

theorem renderChars_Variable (atStart : Bool) (name : String) :
    renderChars atStart (.Variable name) = name.data := by
  cases atStart <;> simp [renderChars]

theorem renderChars_Const_int (atStart : Bool) (i : ℤ) :
    renderChars atStart (.Const (.num (i : ℚ))) = intToChars i := by
  cases atStart <;> simp [renderChars, numToChars_int]

/-- A variable leaf satisfies the token re-parse property. -/
theorem tokSpec_Variable {atStart : Bool} {e : List Char} {name : String}
    (h : name ∈ vars) : TokSpec atStart e (.Variable name) := by
  intro s rest hdrop hb
  rw [renderChars_Variable] at hdrop ⊢
  obtain ⟨-, hne, htok, -⟩ := var_facts name h
  have hcl : classifyToken s (⟨name.data⟩ : String) = .ok (.inl (.Variable name)) := by
    have hmk : (⟨name.data⟩ : String) = name := rfl
    rw [hmk]
    exact classifyToken_var h
  exact ⟨1, parseF_literal_token hdrop htok hb hne hcl⟩

/-- An integer constant leaf satisfies the token re-parse property. -/
theorem tokSpec_Const_int {atStart : Bool} {e : List Char} (i : ℤ) :
    TokSpec atStart e (.Const (.num (i : ℚ))) := by
  intro s rest hdrop hb
  rw [renderChars_Const_int] at hdrop ⊢
  refine ⟨1, ?_⟩
  exact parseF_literal_token hdrop (intToChars_all_token i).1 hb
    (intToChars_ne_nil i) (classifyToken_int s i)

/-- One `parseToken` step on an operator symbol. -/
theorem parseF_opSym {atStart : Bool} {e : List Char} {s : ℕ} {sym : String}
    {rest : List Char} (h : sym ∈ operations)
    (hdrop : e.drop s = sym.data ++ rest) (hb : BoundaryRest rest) :
    parseF atStart e 1 (.token s) = some (.ok (.inr sym, s + sym.data.length)) := by
  obtain ⟨-, -, -, hne, htok, -⟩ := opSym_facts sym h
  have hcl : classifyToken s (⟨sym.data⟩ : String) = .ok (.inr sym) := by
    have hmk : (⟨sym.data⟩ : String) = sym := rfl
    rw [hmk]
    exact classifyToken_op h
  exact parseF_literal_token hdrop htok hb hne hcl

/-- What the loop expects of an item: operands are well-formed `NaN`-free
trees satisfying the token property, operator strings are registered. -/
def ItemOk (atStart : Bool) (e : List Char) : Expr ⊕ String → Prop
  | .inl t => WFT t ∧ NoNaN t ∧ TokSpec atStart e t
  | .inr sym => sym ∈ operations

/-- The head of an item's characters: nonempty, not whitespace, not `)`. -/
theorem itemChars_head {atStart : Bool} {e : List Char} {it : Expr ⊕ String}
    (h : ItemOk atStart e it) :
    ∃ c r, itemChars atStart it = c :: r ∧ jsIsWhitespace c = false ∧ c ≠ ')' := by
  cases it with
  | inl t =>
    obtain ⟨hw, hn, -⟩ := h
    exact renderChars_head atStart hw hn
  | inr sym =>
    obtain ⟨-, -, -, hne, htok, hws⟩ := opSym_facts sym h
    obtain ⟨c, r, hcr⟩ : ∃ c r, sym.data = c :: r := by
      rcases hl : sym.data with _ | ⟨c, r⟩
      · exact absurd hl hne
      · exact ⟨c, r, rfl⟩
    refine ⟨c, r, hcr, hws c (by rw [hcr]; simp), ?_⟩
    have := htok c (by rw [hcr]; simp)
    intro hcc
    rw [hcc] at this
    exact absurd this (by decide)

/-- `finishOperation` succeeds on a well-arity operand list with the single
operator string in the mode's position. -/
theorem finishOperation_eval {a : Bool} {p : ℕ} {tks : List Expr} {sym : String}
    (h1 : 1 ≤ tks.length) (h2 : arity sym = 0 ∨ arity sym = tks.length) :
    finishOperation a p tks [(sym, if a then 0 else tks.length)] = .ok (.Op sym tks) := by
  rw [finishOperation]
  rw [if_neg (by simp), List.getD_cons_zero, if_neg (by simp),
    if_neg (by
      dsimp only
      push_neg
      exact ⟨by omega, fun hz => h2.resolve_left hz⟩)]

/-- One iteration of the collecting loop, assembled from a token step, the
whitespace skip, and the rest of the loop. -/
theorem loop_step {atStart : Bool} {e : List Char} {p s s₁ s₂ f₁ f₂ : ℕ}
    {tks tks₂ : List Expr} {ops ops₂ : List (String × ℕ)} {c : Char}
    {x : Expr ⊕ String} {R : Except ParseErr ((Expr ⊕ String) × ℕ)}
    (hget : e.get? s = some c) (hcne : ¬c = ')')
    (h₁ : parseF atStart e f₁ (.token s) = some (.ok (x, s₁)))
    (hskip : skipWs e s₁ = s₂)
    (hupd : (∃ node, x = .inl node ∧ tks₂ = tks ++ [node] ∧ ops₂ = ops) ∨
      (∃ sym, x = .inr sym ∧ tks₂ = tks ∧ ops₂ = ops ++ [(sym, tks.length)]))
    (h₂ : parseF atStart e f₂ (.loop p s₂ tks₂ ops₂) = some R) :
    parseF atStart e (max f₁ f₂ + 1) (.loop p s tks ops) = some R := by
  have h₁m : parseF atStart e (max f₁ f₂) (.token s) = some (.ok (x, s₁)) :=
    parseF_mono atStart e f₁ _ _ _ h₁ (le_max_left _ _)
  have h₂m : parseF atStart e (max f₁ f₂) (.loop p s₂ tks₂ ops₂) = some R :=
    parseF_mono atStart e f₂ _ _ _ h₂ (le_max_right _ _)
  rcases hupd with ⟨node, rfl, rfl, rfl⟩ | ⟨sym, rfl, rfl, rfl⟩ <;>
    · simp only [parseF, hget, if_neg hcne, h₁m]
      rw [hskip]
      exact h₂m

/-- The collecting loop parses a blank-separated item sequence up to the
closing bracket and hands the collected operands and operator strings to
`finishOperation`, stepping past the `)`. -/
theorem loop_spec (atStart : Bool) (e : List Char) :
    ∀ (items : List (Expr ⊕ String)), (∀ it ∈ items, ItemOk atStart e it) →
    ∀ (p s : ℕ) (tks : List Expr) (ops : List (String × ℕ)) (rest : List Char),
      e.drop s = seqChars atStart items ++ ')' :: rest →
      ∃ f, parseF atStart e f (.loop p s tks ops) =
        some ((finishOperation atStart p (tks ++ itemsTrees items)
            (ops ++ itemsOps tks.length items)).map
          (fun t => (Sum.inl t, s + (seqChars atStart items).length + 1))) := by
  intro items
  induction items with
  | nil =>
    intro _ p s tks ops rest hdrop
    have hseq : seqChars atStart [] = ([] : List Char) := rfl
    rw [hseq, List.nil_append] at hdrop
    have hget : e.get? s = some ')' := drop_get? hdrop
    refine ⟨1, ?_⟩
    simp only [parseF, hget, if_pos rfl]
    simp [hseq, itemsTrees, itemsOps]
  | cons it items' ih =>
    intro hok p s tks ops rest hdrop
    have hokIt : ItemOk atStart e it := hok it (by simp)
    have hok' : ∀ x ∈ items', ItemOk atStart e x := fun x hx => hok x (by simp [hx])
    obtain ⟨c, r0, hitc, hcws, hcne⟩ := itemChars_head hokIt
    have tokStep : ∀ restA, BoundaryRest restA →
        e.drop s = itemChars atStart it ++ restA →
        ∃ f₁ x, parseF atStart e f₁ (.token s) =
            some (.ok (x, s + (itemChars atStart it).length)) ∧
          ((∃ node, x = Sum.inl node ∧ it = .inl node) ∨
            (∃ sym, x = Sum.inr sym ∧ it = .inr sym)) := by
      intro restA hbA hdA
      cases it with
      | inl t =>
        obtain ⟨hw, hn, hts⟩ := hokIt
        obtain ⟨f₁, h₁⟩ := hts s restA hdA hbA
        exact ⟨f₁, _, h₁, .inl ⟨t, rfl, rfl⟩⟩
      | inr sym =>
        exact ⟨1, _, parseF_opSym hokIt hdA hbA, .inr ⟨sym, rfl, rfl⟩⟩
    cases items' with
    | nil =>
      have hseq1 : seqChars atStart [it] = itemChars atStart it := rfl
      rw [hseq1] at hdrop ⊢
      have hd2 : e.drop s = c :: (r0 ++ ')' :: rest) := by
        rw [hdrop, hitc]
        simp
      have hget : e.get? s = some c := drop_get? hd2
      obtain ⟨f₁, x, h₁, hx⟩ := tokStep (')' :: rest) (.inr ⟨')', rest, rfl, .inr rfl⟩) hdrop
      have hdropA : e.drop (s + (itemChars atStart it).length) = ')' :: rest :=
        drop_add_of_drop hdrop
      have hskip : skipWs e (s + (itemChars atStart it).length) =
          s + (itemChars atStart it).length := skipWs_of_head hdropA (by decide)
      rcases hx with ⟨node, rfl, rfl⟩ | ⟨sym, rfl, rfl⟩
      · obtain ⟨f₂, h₂⟩ := ih hok' p (s + (itemChars atStart (Sum.inl node)).length)
          (tks ++ [node]) ops rest hdropA
        have htr : (tks ++ [node]) ++ itemsTrees ([] : List (Expr ⊕ String)) =
            tks ++ itemsTrees [Sum.inl node] := by simp [itemsTrees]
        have hops : ops ++ itemsOps (tks ++ [node]).length ([] : List (Expr ⊕ String)) =
            ops ++ itemsOps tks.length [Sum.inl node] := by simp [itemsOps]
        have hcur : s + (itemChars atStart (Sum.inl node)).length +
            (seqChars atStart ([] : List (Expr ⊕ String))).length + 1 =
            s + (itemChars atStart (Sum.inl node)).length + 1 := by
          simp [seqChars, joinSpace]
        rw [htr, hops, hcur] at h₂
        exact ⟨max f₁ f₂ + 1,
          loop_step hget hcne h₁ hskip (.inl ⟨node, rfl, rfl, rfl⟩) h₂⟩
      · obtain ⟨f₂, h₂⟩ := ih hok' p (s + (itemChars atStart (Sum.inr sym)).length)
          tks (ops ++ [(sym, tks.length)]) rest hdropA
        have htr : tks ++ itemsTrees ([] : List (Expr ⊕ String)) =
            tks ++ itemsTrees [Sum.inr sym] := by simp [itemsTrees]
        have hops : (ops ++ [(sym, tks.length)]) ++
            itemsOps tks.length ([] : List (Expr ⊕ String)) =
            ops ++ itemsOps tks.length [Sum.inr sym] := by simp [itemsOps]
        have hcur : s + (itemChars atStart (Sum.inr sym)).length +
            (seqChars atStart ([] : List (Expr ⊕ String))).length + 1 =
            s + (itemChars atStart (Sum.inr sym)).length + 1 := by
          simp [seqChars, joinSpace]
        rw [htr, hops, hcur] at h₂
        exact ⟨max f₁ f₂ + 1,
          loop_step hget hcne h₁ hskip (.inr ⟨sym, rfl, rfl, rfl⟩) h₂⟩
    | cons it₂ items'' =>
      have hjoin : seqChars atStart (it :: it₂ :: items'') =
          itemChars atStart it ++ ' ' :: seqChars atStart (it₂ :: items'') := by
        rw [seqChars, List.map_cons, joinSpace_cons (by simp)]
        rfl
      rw [hjoin] at hdrop ⊢
      have hdrop₂ : e.drop s = itemChars atStart it ++
          (' ' :: (seqChars atStart (it₂ :: items'') ++ ')' :: rest)) := by
        simpa [List.append_assoc] using hdrop
      have hd2 : e.drop s = c :: (r0 ++
          (' ' :: (seqChars atStart (it₂ :: items'') ++ ')' :: rest))) := by
        rw [hdrop₂, hitc]
        simp
      have hget : e.get? s = some c := drop_get? hd2
      obtain ⟨f₁, x, h₁, hx⟩ := tokStep
        (' ' :: (seqChars atStart (it₂ :: items'') ++ ')' :: rest))
        (.inr ⟨' ', _, rfl, .inl rfl⟩) hdrop₂
      have hdropA : e.drop (s + (itemChars atStart it).length) =
          ' ' :: (seqChars atStart (it₂ :: items'') ++ ')' :: rest) :=
        drop_add_of_drop hdrop₂
      have hdropB : e.drop (s + (itemChars atStart it).length + 1) =
          seqChars atStart (it₂ :: items'') ++ ')' :: rest :=
        drop_succ_of_drop hdropA
      obtain ⟨c₂, r₂, hit₂, hc₂ws, -⟩ := itemChars_head (hok' it₂ (by simp))
      obtain ⟨X, hX⟩ : ∃ X, seqChars atStart (it₂ :: items'') =
          itemChars atStart it₂ ++ X := by
        cases items'' with
        | nil => exact ⟨[], by simp [seqChars, joinSpace]⟩
        | cons z zs =>
          refine ⟨' ' :: seqChars atStart (z :: zs), ?_⟩
          rw [seqChars, List.map_cons, joinSpace_cons (by simp)]
          rfl
      have hdropB' : e.drop (s + (itemChars atStart it).length + 1) =
          c₂ :: (r₂ ++ (X ++ ')' :: rest)) := by
        rw [hdropB, hX, hit₂]
        simp
      have hskip : skipWs e (s + (itemChars atStart it).length) =
          s + (itemChars atStart it).length + 1 :=
        (skipWs_space hdropA).trans (skipWs_of_head hdropB' hc₂ws)
      rcases hx with ⟨node, rfl, rfl⟩ | ⟨sym, rfl, rfl⟩
      · obtain ⟨f₂, h₂⟩ := ih hok' p (s + (itemChars atStart (Sum.inl node)).length + 1)
          (tks ++ [node]) ops rest hdropB
        have htr : (tks ++ [node]) ++ itemsTrees (it₂ :: items'') =
            tks ++ itemsTrees (Sum.inl node :: it₂ :: items'') := by
          simp [itemsTrees]
        have hops : ops ++ itemsOps (tks ++ [node]).length (it₂ :: items'') =
            ops ++ itemsOps tks.length (Sum.inl node :: it₂ :: items'') := by
          simp [itemsOps]
        have hcur : s + (itemChars atStart (Sum.inl node)).length + 1 +
            (seqChars atStart (it₂ :: items'')).length + 1 =
            s + (itemChars atStart (Sum.inl node) ++
              ' ' :: seqChars atStart (it₂ :: items'')).length + 1 := by
          simp
          omega
        rw [htr, hops, hcur] at h₂
        exact ⟨max f₁ f₂ + 1,
          loop_step hget hcne h₁ hskip (.inl ⟨node, rfl, rfl, rfl⟩) h₂⟩
      · obtain ⟨f₂, h₂⟩ := ih hok' p (s + (itemChars atStart (Sum.inr sym)).length + 1)
          tks (ops ++ [(sym, tks.length)]) rest hdropB
        have htr : tks ++ itemsTrees (it₂ :: items'') =
            tks ++ itemsTrees (Sum.inr sym :: it₂ :: items'') := by
          simp [itemsTrees]
        have hops : (ops ++ [(sym, tks.length)]) ++ itemsOps tks.length (it₂ :: items'') =
            ops ++ itemsOps tks.length (Sum.inr sym :: it₂ :: items'') := by
          simp [itemsOps]
        have hcur : s + (itemChars atStart (Sum.inr sym)).length + 1 +
            (seqChars atStart (it₂ :: items'')).length + 1 =
            s + (itemChars atStart (Sum.inr sym) ++
              ' ' :: seqChars atStart (it₂ :: items'')).length + 1 := by
          simp
          omega
        rw [htr, hops, hcur] at h₂
        exact ⟨max f₁ f₂ + 1,
          loop_step hget hcne h₁ hskip (.inr ⟨sym, rfl, rfl, rfl⟩) h₂⟩

theorem itemsOps_map_inl (l : List Expr) : ∀ k, itemsOps k (l.map .inl) = [] := by
  induction l with
  | nil => intro k; rfl
  | cons x xs ih => intro k; simp [itemsOps, ih (k + 1)]

theorem seqChars_cons_decomp (a : Bool) (y : Expr ⊕ String) (l : List (Expr ⊕ String)) :
    ∃ X, seqChars a (y :: l) = itemChars a y ++ X := by
  cases l with
  | nil => exact ⟨[], by simp [seqChars, joinSpace]⟩
  | cons z zs =>
    refine ⟨' ' :: seqChars a (z :: zs), ?_⟩
    rw [seqChars, List.map_cons, joinSpace_cons (by simp)]
    rfl

/-- Strong induction over expression trees through their operand lists. -/
theorem exprInd (P : Expr → Prop) (hc : ∀ v, P (.Const v)) (hv : ∀ n, P (.Variable n))
    (ho : ∀ sym args, (∀ x ∈ args, P x) → P (.Op sym args)) : ∀ t, P t
  | .Const v => hc v
  | .Variable n => hv n
  | .Op sym args => ho sym args (fun x hx => exprInd P hc hv ho x)
termination_by t => sizeOf t
decreasing_by
  have := List.sizeOf_lt_of_mem hx
  simp only [Expr.Op.sizeOf_spec]
  omega

/-- `parseToken` on a rendered operation node: dispatch on `(`, run the loop
over the bracket's item sequence, finish, and stop after the `)`. -/
theorem opToken_spec {atStart : Bool} {e : List Char} {sym : String} {args : List Expr}
    (items : List (Expr ⊕ String)) {s : ℕ} {rest : List Char}
    (hok : ∀ it ∈ items, ItemOk atStart e it)
    (hrender : renderChars atStart (.Op sym args) =
      '(' :: (seqChars atStart items ++ [')']))
    (htrees : itemsTrees items = args)
    (hopsEq : itemsOps 0 items = [(sym, if atStart then 0 else args.length)])
    (hhead : ∃ c r, seqChars atStart items = c :: r ∧ jsIsWhitespace c = false)
    (hlen : 1 ≤ args.length) (har : arity sym = 0 ∨ arity sym = args.length)
    (hdrop : e.drop s = renderChars atStart (.Op sym args) ++ rest) :
    ∃ f, parseF atStart e f (.token s) =
      some (.ok (.inl (.Op sym args),
        s + (renderChars atStart (.Op sym args)).length)) := by
  rw [hrender] at hdrop
  have hdrop1 : e.drop s = '(' :: (seqChars atStart items ++ ')' :: rest) := by
    rw [hdrop]
    simp
  have hget : e.get? s = some '(' := drop_get? hdrop1
  have hdrop2 : e.drop (s + 1) = seqChars atStart items ++ ')' :: rest :=
    drop_succ_of_drop hdrop1
  obtain ⟨c, r, hc, hcws⟩ := hhead
  have hdrop2' : e.drop (s + 1) = c :: (r ++ ')' :: rest) := by
    rw [hdrop2, hc]
    simp
  have hskip : skipWs e (s + 1) = s + 1 := skipWs_of_head hdrop2' hcws
  obtain ⟨f₂, h₂⟩ := loop_spec atStart e items hok s (s + 1) [] [] rest hdrop2
  simp only [List.nil_append, List.length_nil] at h₂
  rw [htrees, hopsEq, finishOperation_eval hlen har] at h₂
  have hcur : s + 1 + (seqChars atStart items).length + 1 =
      s + (renderChars atStart (.Op sym args)).length := by
    rw [hrender]
    simp
    omega
  rw [hcur] at h₂
  refine ⟨f₂ + 1, ?_⟩
  simp only [parseF, if_pos hget]
  rw [hskip, h₂]
  rfl

/-- Every well-formed, `NaN`-free tree satisfies the token re-parse
property: its rendering parses back to itself. -/
theorem tokSpec_all (atStart : Bool) (e : List Char) :
    ∀ t, WFT t → NoNaN t → TokSpec atStart e t := by
  refine exprInd _ ?_ ?_ ?_
  · intro v hw hn
    cases hw with
    | const_num i => exact tokSpec_Const_int i
    | const_nan =>
      exfalso
      cases hn with
      | const v hv => exact hv rfl
  · intro n hw hn
    cases hw with
    | variable_mem name hmem => exact tokSpec_Variable hmem
  · intro sym args hIH hw hn
    cases hw with
    | op _ _ hop hlen har hall =>
    have hnall : ∀ x ∈ args, NoNaN x := by
      cases hn with
      | op _ _ h => exact h
    have hokInl : ∀ x ∈ args, ItemOk atStart e (Sum.inl x) :=
      fun x hx => ⟨hall x hx, hnall x hx, hIH x hx (hall x hx) (hnall x hx)⟩
    have hsymmem : sym ∈ operations := by simpa [isOperation] using hop
    have hargs_ne : args ≠ [] := by
      intro h0
      rw [h0] at hlen
      simp at hlen
    intro s rest hdrop hb
    cases atStart with
    | true =>
      have hmap : (args.map Sum.inl).map (itemChars true) = args.map prefixChars := by
        rw [List.map_map]
        rfl
      have hne2 : args.map prefixChars ≠ [] := by
        simp only [ne_eq, List.map_eq_nil]
        exact hargs_ne
      have hseqt : seqChars true (Sum.inr sym :: args.map Sum.inl) =
          sym.data ++ ' ' :: joinSpace (args.map prefixChars) := by
        rw [seqChars, List.map_cons, hmap,
          show itemChars true (Sum.inr sym) = sym.data from rfl]
        exact joinSpace_cons hne2
      have hrender : renderChars true (.Op sym args) =
          '(' :: (seqChars true (Sum.inr sym :: args.map Sum.inl) ++ [')']) := by
        rw [show renderChars true (.Op sym args) = prefixChars (.Op sym args) from rfl,
          prefixChars_Op, hseqt]
        simp
      have hok : ∀ it ∈ Sum.inr sym :: args.map Sum.inl, ItemOk true e it := by
        intro it hit
        rcases List.mem_cons.mp hit with rfl | hit
        · exact hsymmem
        · obtain ⟨x, hx, rfl⟩ := List.mem_map.mp hit
          exact hokInl x hx
      have htrees : itemsTrees (Sum.inr sym :: args.map Sum.inl) = args := by
        simp [itemsTrees, itemsTrees_map_inl]
      have hopsEq : itemsOps 0 (Sum.inr sym :: args.map Sum.inl) =
          [(sym, if true = true then 0 else args.length)] := by
        simp [itemsOps, itemsOps_map_inl]
      have hhead : ∃ c r, seqChars true (Sum.inr sym :: args.map Sum.inl) = c :: r ∧
          jsIsWhitespace c = false := by
        obtain ⟨-, -, -, hne0, -, hws⟩ := opSym_facts sym hsymmem
        obtain ⟨c₀, r₀, hcr⟩ : ∃ c₀ r₀, sym.data = c₀ :: r₀ := by
          rcases hl : sym.data with _ | ⟨c₀, r₀⟩
          · exact absurd hl hne0
          · exact ⟨c₀, r₀, rfl⟩
        refine ⟨c₀, r₀ ++ ' ' :: joinSpace (args.map prefixChars), ?_,
          hws c₀ (by rw [hcr]; simp)⟩
        rw [hseqt, hcr]
        simp
      exact opToken_spec (Sum.inr sym :: args.map Sum.inl) hok hrender htrees hopsEq
        hhead hlen har hdrop
    | false =>
      have hmap : (args.map Sum.inl).map (itemChars false) = args.map postfixChars := by
        rw [List.map_map]
        rfl
      have hne2 : args.map postfixChars ≠ [] := by
        simp only [ne_eq, List.map_eq_nil]
        exact hargs_ne
      have hseqf : seqChars false (args.map Sum.inl ++ [Sum.inr sym]) =
          joinSpace (args.map postfixChars) ++ ' ' :: sym.data := by
        rw [seqChars, List.map_append, hmap,
          show List.map (itemChars false) [Sum.inr sym] = [sym.data] from rfl]
        exact joinSpace_append_singleton hne2
      have hrender : renderChars false (.Op sym args) =
          '(' :: (seqChars false (args.map Sum.inl ++ [Sum.inr sym]) ++ [')']) := by
        rw [show renderChars false (.Op sym args) = postfixChars (.Op sym args) from rfl,
          postfixChars_Op, hseqf]
        simp
      have hok : ∀ it ∈ args.map Sum.inl ++ [Sum.inr sym], ItemOk false e it := by
        intro it hit
        rcases List.mem_append.mp hit with hit | hit
        · obtain ⟨x, hx, rfl⟩ := List.mem_map.mp hit
          exact hokInl x hx
        · rw [List.mem_singleton.mp hit]
          exact hsymmem
      have htrees : itemsTrees (args.map Sum.inl ++ [Sum.inr sym]) = args := by
        rw [itemsTrees_map_inl_append]
        simp [itemsTrees]
      have hopsEq : itemsOps 0 (args.map Sum.inl ++ [Sum.inr sym]) =
          [(sym, if false = true then 0 else args.length)] := by
        rw [itemsOps_map_inl_append]
        simp [itemsOps]
      have hhead : ∃ c r, seqChars false (args.map Sum.inl ++ [Sum.inr sym]) = c :: r ∧
          jsIsWhitespace c = false := by
        obtain ⟨a₀, args', rfl⟩ := List.exists_cons_of_ne_nil hargs_ne
        obtain ⟨c₀, r₀, hcr, hc₀ws, -⟩ :=
          renderChars_head false (hall a₀ (by simp)) (hnall a₀ (by simp))
        have hform : (a₀ :: args').map Sum.inl ++ [Sum.inr sym] =
            Sum.inl a₀ :: (args'.map Sum.inl ++ [Sum.inr sym]) := by simp
        obtain ⟨X, hX⟩ := seqChars_cons_decomp false (Sum.inl a₀)
          (args'.map Sum.inl ++ [Sum.inr sym])
        refine ⟨c₀, r₀ ++ X, ?_, hc₀ws⟩
        rw [hform, hX, show itemChars false (Sum.inl a₀) = renderChars false a₀ from rfl,
          hcr]
        simp
      exact opToken_spec (args.map Sum.inl ++ [Sum.inr sym]) hok hrender htrees hopsEq
        hhead hlen har hdrop

/-- A rendered well-formed `NaN`-free tree re-parses to itself at top level. -/
theorem parseWithBrackets_render (atStart : Bool) (t : Expr) (hw : WFT t) (hn : NoNaN t) :
    parseWithBrackets atStart ⟨renderChars atStart t⟩ = .ok t := by
  obtain ⟨f, hf⟩ := tokSpec_all atStart (renderChars atStart t) t hw hn 0 []
    (by simp) (.inl rfl)
  obtain ⟨c, r, hcr, hcws, -⟩ := renderChars_head atStart hw hn
  have hskip0 : skipWs (renderChars atStart t) 0 = 0 :=
    skipWs_of_head (by rw [List.drop_zero]; exact hcr) hcws
  have hbound : PCall.bound (renderChars atStart t) (.token 0) ≤
      3 * (renderChars atStart t).length + 3 := by
    simp only [PCall.bound]
    omega
  have hsome := parseF_isSome atStart (renderChars atStart t)
    (3 * (renderChars atStart t).length + 3) (.token 0) hbound
  obtain ⟨r₀, hr₀⟩ := Option.isSome_iff_exists.mp hsome
  have h1 : parseF atStart (renderChars atStart t)
      (max f (3 * (renderChars atStart t).length + 3)) (.token 0) =
      some (.ok (.inl t, 0 + (renderChars atStart t).length)) :=
    parseF_mono atStart _ f _ _ _ hf (le_max_left _ _)
  have h2 : parseF atStart (renderChars atStart t)
      (max f (3 * (renderChars atStart t).length + 3)) (.token 0) = some r₀ :=
    parseF_mono atStart _ _ _ _ _ hr₀ (le_max_right _ _)
  have hr₀v : r₀ = .ok (.inl t, 0 + (renderChars atStart t).length) := by
    rw [h1] at h2
    exact (Option.some_inj.mp h2).symm
  rw [parseWithBrackets]
  dsimp only
  rw [hskip0, hr₀, hr₀v]
  dsimp only
  have hlen0 : (0 : ℕ) + (renderChars atStart t).length = (renderChars atStart t).length := by
    omega
  rw [hlen0]
  have hskipend : skipWs (renderChars atStart t) (renderChars atStart t).length =
      (renderChars atStart t).length := skipWs_of_end (List.drop_length _)
  rw [hskipend, if_neg (by omega)]

/-! The ten claims of the specification, in order.  Corrected claims state
what the code actually does; each comes with a separate counterexample
theorem refuting the original wording. -/

theorem arityOK_add_unary_false : ¬ ArityOK (.Op "+" [.Const (.num 2)]) := by
  intro h
  cases h with
  | op sym args hop hlen har hall =>
    rcases har with h | h <;> simp [arity] at h

/-- C1: the flat postfix parser registers arity 0 for the variadic `mean` and
`var` (`operation.length` of a rest-parameter function is 0), so the operator
pops nothing and `stack[0]` is the first constant pushed: `parse("2 3 6 mean")`
is the node `Const 2` and evaluates to `2` (not the mean `3` the spec claims),
and `parse("2 5 11 var")` likewise evaluates to `2` (not `14`). -/
theorem claim_C1_flat_variadic_actual :
    parse "2 3 6 mean" = some (.Const (.num 2)) ∧
    (parse "2 3 6 mean").map (fun t => evaluate t []) = some (.num 2) ∧
    parse "2 5 11 var" = some (.Const (.num 2)) ∧
    (parse "2 5 11 var").map (fun t => evaluate t []) = some (.num 2) ∧
    arity "mean" = 0 ∧ arity "var" = 0 := by
  refine ⟨rfl, ?_, rfl, ?_, rfl, rfl⟩
  · rw [show parse "2 3 6 mean" = some (.Const (.num 2)) from rfl]
    simp
  · rw [show parse "2 5 11 var" = some (.Const (.num 2)) from rfl]
    simp

/-- C1 counterexample: the claimed values 3 and 14 are not what the flat
parser's results evaluate to. -/
theorem claim_C1_cex :
    (parse "2 3 6 mean").map (fun t => evaluate t []) ≠ some (.num 3) ∧
    (parse "2 5 11 var").map (fun t => evaluate t []) ≠ some (.num 14) := by
  constructor
  · rw [show parse "2 3 6 mean" = some (.Const (.num 2)) from rfl]
    simp
  · rw [show parse "2 5 11 var" = some (.Const (.num 2)) from rfl]
    simp

/-- C2: the bracketed parsers do enforce the arity invariant on every node
they build, but the flat `parse` does not: with `mean`/`var` registered at
arity 0, an operator token splices `stack.length - arity` onwards, so
`parse("2 +")` builds an `Add` node with one operand. -/
theorem claim_C2_arity_invariant :
    (∀ (a : Bool) (s : String) (t : Expr),
      parseWithBrackets a s = .ok t → ArityOK t) ∧
    parse "2 +" = some (.Op "+" [.Const (.num 2)]) ∧
    ¬ ArityOK (.Op "+" [.Const (.num 2)]) := by
  refine ⟨fun a s t h => (parseWithBrackets_ok_WFT h).arityOK, rfl,
    arityOK_add_unary_false⟩

/-- C2 counterexample: the flat parser constructs an operation node whose
operand count violates the registered arity. -/
theorem claim_C2_cex :
    parse "2 +" = some (.Op "+" [.Const (.num 2)]) ∧
    ¬ ArityOK (.Op "+" [.Const (.num 2)]) :=
  ⟨rfl, arityOK_add_unary_false⟩

/-- C3: re-parsing the rendering reproduces the tree for every accepted tree
whose constants are all safe integers (magnitude below `2 ^ 53`), the range
on which the embedding's exact constants and plain-decimal rendering coincide
with the source's float64 values.  Some restriction is necessary in the
source: `parsePrefix(".5")` succeeds with `Const NaN` (`!isNaN(".5")` holds
but `parseInt(".5")` is `NaN`), whose rendering `"NaN"` is rejected on
re-parse, and a constant of `1e22` renders exponentially as `"1e+22"`, which
`parseInt` reads back as `1`. -/
theorem claim_C3_roundtrip_safe :
    (∀ (s : String) (t : Expr), parsePrefix s = .ok t → SafeConsts t →
      parsePrefix (prefixString t) = .ok t) ∧
    (∀ (s : String) (t : Expr), parsePostfix s = .ok t → SafeConsts t →
      parsePostfix (postfixString t) = .ok t) := by
  constructor
  · intro s t h hs
    exact parseWithBrackets_render true t (parseWithBrackets_ok_WFT h) hs.noNaN
  · intro s t h hs
    exact parseWithBrackets_render false t (parseWithBrackets_ok_WFT h) hs.noNaN

/-- C3 counterexample: an accepted input whose rendering fails to re-parse,
so the round trip does not hold for every accepted input. -/
theorem claim_C3_cex :
    parsePrefix ".5" = .ok (.Const .nan) ∧
    prefixString (.Const .nan) = "NaN" ∧
    parsePrefix "NaN" = .error (.invalidFormat "Unknown token: NaN" (some 0)) := by
  refine ⟨rfl, ?_, rfl⟩
  rw [prefixString, prefixChars_Const]
  rfl

/-- C4: `Mean`'s derivative is exactly the quotient of the derivative of the
`Add`-left-fold of the operands (seeded with `Const.ZERO`) by the operand
count taken as a constant; the fold's derivative distributes to one
derivative per operand with the seed differentiating to zero, and the count
itself is never differentiated. -/
theorem claim_C4_mean_diff (args : List Expr) (v : String) :
    diff (.Op "mean" args) v =
      .Op "/" [diff (args.foldl (fun a x => .Op "+" [a, x]) (.Const (.num 0))) v,
        .Const (.num args.length)] ∧
    diff (args.foldl (fun a x => .Op "+" [a, x]) (.Const (.num 0))) v =
      (args.map (fun x => diff x v)).foldl (fun a x => .Op "+" [a, x])
        (.Const (.num 0)) := by
  constructor
  · simp [diff]
  · rw [diff_foldl_add, diff_Const]

/-- C5: after the closing bracket, an operand count of zero, or one that
differs from the registered arity when that arity is not the variadic
sentinel 0, raises the invalid-amount-of-arguments `InvalidOperationError`;
a successful finish certifies count at least one matching the arity unless
variadic; `parsePrefix("(+ x)")` raises that error. -/
theorem claim_C5_arity_check :
    (∀ (a : Bool) (p : ℕ) (tks : List Expr) (sym : String),
      tks.length = 0 ∨ (arity sym ≠ 0 ∧ arity sym ≠ tks.length) →
      finishOperation a p tks [(sym, if a then 0 else tks.length)] =
        .error (.invalidOperation ("Invalid amount of arguments (" ++
          toString tks.length ++ ") for operation " ++ sym) p)) ∧
    (∀ (a : Bool) (p : ℕ) (tks : List Expr) (ops : List (String × ℕ)) (t : Expr),
      finishOperation a p tks ops = .ok t →
      1 ≤ tks.length ∧
        ∃ sym, t = .Op sym tks ∧ (arity sym = 0 ∨ arity sym = tks.length)) ∧
    parsePrefix "(+ x)" =
      .error (.invalidOperation "Invalid amount of arguments (1) for operation +" 0) := by
  refine ⟨?_, ?_, rfl⟩
  · intro a p tks sym hbad
    have h1 : ¬ ([(sym, if a then 0 else tks.length)].length ≠ 1) := by simp
    rw [finishOperation, if_neg h1]
    simp only [List.getD_cons_zero]
    rw [if_neg (by simp), if_pos hbad]
  · intro a p tks ops t h
    obtain ⟨sym, i, -, -, rfl, hlen, har⟩ := finishOperation_ok h
    exact ⟨hlen, sym, rfl, har⟩

/-- C6: with exactly one operator string in the bracketed group, an operator
index other than 0 in prefix mode or other than the operand count in postfix
mode raises the invalid-operation-position `InvalidOperationError`, and a
successful finish certifies the operator sat exactly there;
`parsePrefix("(x + y)")` raises that error. -/
theorem claim_C6_position_check :
    (∀ (a : Bool) (p : ℕ) (tks : List Expr) (sym : String) (i : ℕ),
      i ≠ (if a then 0 else tks.length) →
      finishOperation a p tks [(sym, i)] =
        .error (.invalidOperation ("Invalid operation position (operation: " ++
          sym ++ ")") p)) ∧
    (∀ (a : Bool) (p : ℕ) (tks : List Expr) (ops : List (String × ℕ)) (t : Expr),
      finishOperation a p tks ops = .ok t →
      ∃ sym, ops = [(sym, if a then 0 else tks.length)]) ∧
    parsePrefix "(x + y)" =
      .error (.invalidOperation "Invalid operation position (operation: +)" 0) := by
  refine ⟨?_, ?_, rfl⟩
  · intro a p tks sym i hi
    have h1 : ¬ ([(sym, i)].length ≠ 1) := by simp
    rw [finishOperation, if_neg h1]
    simp only [List.getD_cons_zero]
    rw [if_pos hi]
  · intro a p tks ops t h
    obtain ⟨sym, i, rfl, hi, -, -, -⟩ := finishOperation_ok h
    exact ⟨sym, by rw [hi]⟩

/-- C7: every error of the bracketed parsers carries its character offset
except one: the top-level "contains only operation" `InvalidFormatError` is
constructed without a position (`pos` defaults to `undefined`), and
`parsePrefix("+")` raises exactly that position-less error. -/
theorem claim_C7_error_positions :
    (∀ (a : Bool) (s : String) (err : ParseErr),
      parseWithBrackets a s = .error err →
      errHasPos err ∨
        err = .invalidFormat "Invalid expression which contains only operation" none) ∧
    parsePrefix "+" =
      .error (.invalidFormat "Invalid expression which contains only operation" none) :=
  ⟨fun a s err h => parseWithBrackets_err h, rfl⟩

/-- C7 counterexample: a parse error raised without any character offset. -/
theorem claim_C7_cex :
    parsePrefix "+" =
      .error (.invalidFormat "Invalid expression which contains only operation" none) ∧
    ¬ errHasPos (.invalidFormat "Invalid expression which contains only operation" none) :=
  ⟨rfl, by simp [errHasPos]⟩

/-- C8: the bracketed parsers accept every token JavaScript's `isNaN` deems
numeric, not only integer digit strings: such a non-variable token becomes
`Const(parseInt(token))`, so `"3.5"` is accepted and truncated to the
constant 3 rather than rejected. -/
theorem claim_C8_numeric_tokens :
    (∀ (p : ℕ) (tok : String), tok.length ≠ 0 → vars.contains tok = false →
      jsIsNumeric tok = true →
      classifyToken p tok = .ok (.inl (.Const (jsParseInt tok)))) ∧
    jsIsNumeric "3.5" = true ∧
    jsParseInt "3.5" = .num 3 ∧
    parsePrefix "3.5" = .ok (.Const (.num 3)) := by
  refine ⟨?_, rfl, rfl, rfl⟩
  intro p tok hlen hvar hnum
  rw [classifyToken, if_neg hlen, if_neg (by simp only [hvar]; decide), if_pos hnum]

/-- C8 counterexample: the non-integer numeric token "3.5" is accepted as a
constant instead of raising a parse error. -/
theorem claim_C8_cex : parsePrefix "3.5" = .ok (.Const (.num 3)) := rfl

/-- C9: `Variable.evaluate` reads `varValues[vars.indexOf(name)]`; a name
outside `["x","y","z"]` gives index -1, and a JS array read at -1 yields
`undefined` rather than raising any lookup error. -/
theorem claim_C9_variable_lookup :
    (∀ (name : String) (values : List JSVal),
      evaluate (.Variable name) values = jsIndex values (jsIndexOf vars name)) ∧
    (∀ (name : String) (values : List JSVal), name ∉ vars →
      evaluate (.Variable name) values = .undef) := by
  refine ⟨fun name values => evaluate_Variable name values, ?_⟩
  intro name values hmem
  rw [evaluate_Variable]
  have hf : vars.findIdx? (· = name) = none := by
    rw [List.findIdx?_eq_none_iff]
    intro x hx
    simp only [decide_eq_false_iff_not]
    intro h
    exact hmem (h ▸ hx)
  unfold jsIndexOf
  rw [hf, jsIndex, if_neg (by norm_num)]

/-- C9 counterexample: an unknown variable name evaluates to `undefined`, a
normally returned value, not an index or lookup failure. -/
theorem claim_C9_cex :
    evaluate (.Variable "w") [.num 1, .num 2, .num 3] = .undef := by
  rw [evaluate_Variable]
  rfl


end ObjectExpression
